import Mathlib

/-!
Verification development for the family-caregiving schedule application
(time-block scheduling and reminder-evaluation engine).

The definitions below are a shallow embedding of the TypeScript source:
  * `src/lib/time` (`toMinutes`, `minutesToTime`, `buildBlocks`,
    `findCurrentBlockIndex`, `validateSchedule`),
  * `src/app/elder/page.tsx` (`eventOccursOnDate`, `activeEvent`,
    `getAlertMinutesForBlock`, the alert `tick`),
  * `src/lib/storage.ts` (`loadDoneSet`, `loadEvents`, `loadSchedule`,
    `normalizeEvent`).

Modelling conventions:
  * JavaScript numbers are modelled as `ℚ` where fractional values can occur
    (JSON payloads, alert-minute lists) and as `Int`/`Nat` where the source
    only ever produces integers (minute arithmetic).  `NaN` is modelled as
    `Option.none`.
  * `JSON.parse` results are modelled by the inductive `Json`; a raw storage
    read is a `StoredValue` (missing key, malformed JSON, or a parsed value).
  * JS `Array.prototype.sort` (stable, comparator-based, with a comparator
    result of `NaN` treated as `±0` per ES SortCompare) is modelled by
    `List.insertionSort` with the non-strict comparator relation, which has
    the same stable semantics.
  * JS `Date` calendar arithmetic (`getDay`/`getMonth`/`getDate` of a
    `new Date(y, m, d)`) is modelled by proleptic-Gregorian civil-date
    conversions (`daysFromCivil` / `civilFromDays`), including the
    two-digit-year adjustment and out-of-range month/day normalization.
-/

/-! ## JSON values and JavaScript coercions -/

/-- A parsed JSON value.  Numbers are rationals: JSON text cannot encode
`NaN` or infinities, so every parsed number is finite. -/
inductive Json where
  | null
  | bool (b : Bool)
  | num (q : ℚ)
  | str (s : String)
  | arr (items : List Json)
  | obj (fields : List (String × Json))

/-- JS whitespace for `String.prototype.trim` (the common code points). -/
def isJsWhitespace (c : Char) : Bool :=
  c == ' ' || c == '\t' || c == '\n' || c == '\r' ||
  c == '\x0b' || c == '\x0c' || c == '\u00A0' || c == '\uFEFF'

/-- JS `String.prototype.trim`: strip whitespace from both ends. -/
def jsTrim (s : String) : String :=
  String.mk (((s.data.dropWhile isJsWhitespace).reverse.dropWhile isJsWhitespace).reverse)

/-- Code-unit lexicographic "less than" on character lists (JS `<` on
strings; code unit = code point on the BMP strings of this domain). -/
def charListLt : List Char → List Char → Bool
  | [], [] => false
  | [], _ :: _ => true
  | _ :: _, [] => false
  | a :: as, b :: bs =>
    if a.toNat < b.toNat then true
    else if b.toNat < a.toNat then false
    else charListLt as bs

/-- JS `a < b` on strings. -/
def jsStrLt (a b : String) : Bool := charListLt a.data b.data

/-- JS `a <= b` on strings (`!(b < a)`). -/
def jsStrLe (a b : String) : Bool := !(charListLt b.data a.data)

/-- Split a character list on a separator character. -/
def splitOnChar (sep : Char) : List Char → List (List Char)
  | [] => [[]]
  | x :: rest =>
    let r := splitOnChar sep rest
    if x == sep then [] :: r
    else
      match r with
      | [] => [[x]]
      | h :: t => (x :: h) :: t

/-- JS `value.split("-")` (`"".split("-")` gives `[""]`). -/
def jsSplitDash (s : String) : List String :=
  (splitOnChar '-' s.data).map String.mk

/-- Rendering of a rational as a string.  Only non-emptiness of the result is
ever relevant downstream (labels/tasks are checked for emptiness after
trimming), so this does not reproduce JS float formatting exactly. -/
def ratToString (q : ℚ) : String :=
  if q.den = 1 then toString q.num else toString q.num ++ "/" ++ toString q.den

/-- JS `String()` on non-array values (arrays handled one level up). -/
def jsScalarString : Json → String
  | Json.null => "null"
  | Json.bool true => "true"
  | Json.bool false => "false"
  | Json.num q => ratToString q
  | Json.str s => s
  | Json.obj _ => "[object Object]"
  | Json.arr _ => ""

/-- JS `Array.prototype.join`: `null` elements render as the empty string,
other elements via the given renderer. -/
def jsJoinWith (render : Json → String) (sep : String) (xs : List Json) : String :=
  String.intercalate sep
    (xs.map fun j => match j with | Json.null => "" | other => render other)

/-- One nesting level of JS array stringification. -/
def jsElemString : Json → String
  | Json.arr ys => jsJoinWith jsScalarString "," ys
  | other => jsScalarString other

/-- JS `String(value)`.  Arrays join their elements with `","`; nesting
deeper than two levels is approximated (no claim depends on it). -/
def jsToString : Json → String
  | Json.arr xs => jsJoinWith jsElemString "," xs
  | other => jsScalarString other

/-- `takeWhile`-parsed run of decimal digits as a natural number. -/
def digitsVal (cs : List Char) : Nat :=
  cs.foldl (fun acc c => acc * 10 + (c.toNat - 48)) 0

/-- JS `Number()` applied to a string, modelled for optional sign, decimal
digits, and an optional fractional part ("", " 5 ", "-3.25", ".5", "5.").
Exotic forms (hex, exponents) are out of the model and map to `NaN`
(`Option.none`); no claim depends on them. -/
def jsStringToNumber (s : String) : Option ℚ :=
  match (jsTrim s).data with
  | [] => some 0
  | cs =>
    let signBody : ℚ × List Char :=
      match cs with
      | '-' :: rest => (-1, rest)
      | '+' :: rest => (1, rest)
      | _ => (1, cs)
    let sign := signBody.1
    let body := signBody.2
    let intPart := body.takeWhile (fun c => c ≠ '.')
    let rest := body.drop intPart.length
    match rest with
    | [] =>
      if intPart ≠ [] ∧ intPart.all Char.isDigit then
        some (sign * (digitsVal intPart : ℚ))
      else none
    | '.' :: fracs =>
      if intPart.all Char.isDigit ∧ fracs.all Char.isDigit ∧
          (intPart ≠ [] ∨ fracs ≠ []) then
        some (sign * ((digitsVal intPart : ℚ) +
          (digitsVal fracs : ℚ) / ((10 : ℚ) ^ fracs.length)))
      else none
    | _ => none

/-- JS `Number(value)` coercion.  A singleton array coerces through its sole
element (JS goes through `String()`; this agrees on the numeric forms the
model covers), other arrays and objects give `NaN`. -/
def jsToNumber : Json → Option ℚ
  | Json.null => some 0
  | Json.bool b => some (if b then 1 else 0)
  | Json.num q => some q
  | Json.str s => jsStringToNumber s
  | Json.arr [] => some 0
  | Json.arr [x] => jsToNumber x
  | Json.arr (_ :: _ :: _) => none
  | Json.obj _ => none

/-- JS `Math.round`: round half toward positive infinity,
`⌊q + 1/2⌋ = ⌊(2·num + den) / (2·den)⌋` computed directly on the reduced
numerator/denominator (see `jsRound_eq_floor`). -/
def jsRound (q : ℚ) : Int :=
  Int.fdiv (2 * q.num + (q.den : Int)) (2 * (q.den : Int))

/-! ## Time utilities (`src/lib/time`) -/

def DAY_MINUTES : Int := 24 * 60

def digitVal (c : Char) : Nat := c.toNat - 48

/-- `toMinutes(timeStr)`: strict `^(\d{2}):(\d{2})$` match; `24:00` is the
end-of-day sentinel 1440; hours above 23 or minutes above 59 give `NaN`
(`Option.none`). -/
def toMinutes (timeStr : String) : Option Int :=
  match timeStr.data with
  | [h1, h2, c, m1, m2] =>
    if h1.isDigit && h2.isDigit && c == ':' && m1.isDigit && m2.isDigit then
      let hh := digitVal h1 * 10 + digitVal h2
      let mm := digitVal m1 * 10 + digitVal m2
      if hh == 24 && mm == 0 then some DAY_MINUTES
      else if hh > 23 || mm > 59 then none
      else some ((hh * 60 + mm : Nat) : Int)
    else none
  | _ => none

/-- `pad2`: `String(value).padStart(2, "0")`. -/
def pad2 (value : Nat) : String :=
  let s := toString value
  if s.length < 2 then String.mk (List.replicate (2 - s.length) '0') ++ s else s

/-- `minutesToTime(minutes)`: clamp to `[0, 1440]` and format as `HH:MM`.
The source first applies `Math.round`; the model's input is already an
integer, on which rounding is the identity. -/
def minutesToTime (minutes : Int) : String :=
  let safe := max 0 (min minutes DAY_MINUTES)
  let safeN := safe.toNat
  pad2 (safeN / 60) ++ ":" ++ pad2 (safeN % 60)

/-! ## Data model -/

inductive AlertTarget where
  | start
  | end_
deriving DecidableEq

inductive RepeatKind where
  | none
  | daily
  | weekly
  | yearly
deriving DecidableEq

/-- The `label` field of a persisted block: absent, a string, or an array.
Array labels loaded from storage are stored unconverted (the source casts
without converting), so elements are arbitrary JSON values. -/
inductive LabelField where
  | none
  | str (s : String)
  | arr (items : List Json)

structure TimeBlock where
  start : String
  end_ : String
  label : LabelField := LabelField.none
  tasks : Option (List String) := Option.none
  alertMinutes : Option (List ℚ) := Option.none
  alertTarget : Option AlertTarget := Option.none

structure BuiltBlock where
  start : String
  end_ : String
  startMin : Int
  endMin : Int
  label : String
  alertMinutes : Option (List ℚ)
  alertTarget : Option AlertTarget
deriving DecidableEq

structure CalendarEvent where
  id : String
  startDate : String
  endDate : String
  start : String
  end_ : String
  label : String
  allDay : Bool := false
  repeat_ : Option RepeatKind := Option.none
  source : Option String := Option.none
deriving DecidableEq

/-! ## Constants (`src/lib/constants.ts`) -/

def DEFAULT_ALERT_TARGET : AlertTarget := AlertTarget.start

def DEFAULT_ALERT_MINUTES : List ℚ := [30, 10, 5]

def TIME_BLOCKS : List TimeBlock := [
  { start := "00:00", end_ := "06:30", label := LabelField.str "편안히 쉬기" },
  { start := "06:30", end_ := "09:00", label := LabelField.str "아침 식사 후 약 복용" },
  { start := "09:00", end_ := "11:30", label := LabelField.str "물 한 컵 마시기" },
  { start := "11:30", end_ := "13:30", label := LabelField.str "점심 식사" },
  { start := "13:30", end_ := "16:30", label := LabelField.str "가벼운 스트레칭" },
  { start := "16:30", end_ := "18:30", label := LabelField.str "휴식" },
  { start := "18:30", end_ := "20:30", label := LabelField.str "저녁 식사" },
  { start := "20:30", end_ := "24:00", label := LabelField.str "취침 준비" }
]

/-! ## Schedule builder (`buildBlocks`) -/

/-- The `list.forEach` splitting loop of `buildBlocks`: walks the task list
with a running cursor, the first `rem` slices one minute longer.
`base = Math.floor(duration / n)` is floor division and
`rem = duration % n` is JS (truncation) remainder. -/
def splitGo (base rem : Int) (am : Option (List ℚ)) (tgt : AlertTarget) :
    Int → Nat → List String → List BuiltBlock
  | _, _, [] => []
  | cursor, idx, t :: rest =>
    let slice := base + (if (idx : Int) < rem then 1 else 0)
    { start := minutesToTime cursor
      end_ := minutesToTime (cursor + slice)
      startMin := cursor
      endMin := cursor + slice
      label := t
      alertMinutes := am
      alertTarget := some tgt } :: splitGo base rem am tgt (cursor + slice) (idx + 1) rest

/-- The task-list selection of `buildBlocks`: prefer the `tasks` array, else
an array label, else the singleton label (`label ?? ""`); keep only string
entries (`typeof task === "string"`), trim, drop empties; substitute a
single empty-string task when nothing remains. -/
def effectiveTasks (block : TimeBlock) : List String :=
  let rawTasks : List Json :=
    match block.tasks with
    | some ts => ts.map Json.str
    | Option.none =>
      match block.label with
      | LabelField.arr la => la
      | LabelField.str s => [Json.str s]
      | LabelField.none => [Json.str ""]
  let normalized :=
    ((rawTasks.filterMap fun j =>
        match j with | Json.str s => some s | _ => Option.none).map
      jsTrim).filter fun t => t.length > 0
  if normalized.isEmpty then [""] else normalized

/-- The body of the `blocks.forEach` in `buildBlocks`, producing the built
blocks contributed by one `TimeBlock`. -/
def buildBlockOne (block : TimeBlock) : List BuiltBlock :=
  match toMinutes block.start, toMinutes block.end_ with
  | some startMin, some endMin =>
    let alertMinutes := block.alertMinutes
    let alertTarget := block.alertTarget.getD DEFAULT_ALERT_TARGET
    let list := effectiveTasks block
    if list.length ≤ 1 then
      [{ start := block.start
         end_ := block.end_
         startMin := startMin
         endMin := endMin
         label := list.headD ""
         alertMinutes := alertMinutes
         alertTarget := some alertTarget }]
    else
      let duration := endMin - startMin
      let base := Int.fdiv duration list.length
      let rem := Int.tmod duration list.length
      splitGo base rem alertMinutes alertTarget startMin 0 list
  | _, _ => []

def buildBlocks (blocks : List TimeBlock) : List BuiltBlock :=
  blocks.flatMap buildBlockOne

/-! ## Current-block locator (`findCurrentBlockIndex`) -/

/-- The primary-pass condition: a normal interval contains `now` when
`start ≤ now < end`; a wrapping interval (`start > end`) when
`now ≥ start` or `now < end`. -/
def blockContains (now : Int) (b : BuiltBlock) : Bool :=
  (b.startMin ≤ b.endMin && b.startMin ≤ now && now < b.endMin) ||
  (b.startMin > b.endMin && (now ≥ b.startMin || now < b.endMin))

/-- The primary scan: first index whose block contains `now`. -/
def findLoop (now : Int) : Nat → List BuiltBlock → Option Nat
  | _, [] => Option.none
  | i, b :: rest => if blockContains now b then some i else findLoop now (i + 1) rest

/-- One step of the fallback scan.  The source tracks
`(nextIndex, nextStart)` with sentinels `-1` / `+∞` and `(prevIndex,
prevStart)` with `-1` / `-∞`; the sentinel pairs are modelled as
`Option (index × start)` (the source maintains both components in
lock-step). -/
def stepNP (now : Int) (st : Option (Nat × Int) × Option (Nat × Int))
    (p : Nat × BuiltBlock) : Option (Nat × Int) × Option (Nat × Int) :=
  let s := p.2.startMin
  let nxt := if s ≥ now && (st.1.all fun q => s < q.2) then some (p.1, s) else st.1
  let prv := if s ≤ now && (st.2.all fun q => s > q.2) then some (p.1, s) else st.2
  (nxt, prv)

/-- `findCurrentBlockIndex`.  The source receives a `Date` and computes
`nowMinutes = hours*60 + minutes`; the model takes that minute count
directly. -/
def findCurrentBlockIndex (now : Int) (blocks : List BuiltBlock) : Nat :=
  if blocks.isEmpty then 0
  else
    match findLoop now 0 blocks with
    | some i => i
    | Option.none =>
      let st := blocks.enum.foldl (stepNP now) (Option.none, Option.none)
      match st.1 with
      | some q => q.1
      | Option.none =>
        match st.2 with
        | some q => q.1
        | Option.none => 0

/-! ## Schedule validator (`validateSchedule`) -/

def msgEmptySchedule : String := "시간 블록을 최소 1개 이상 추가해 주세요."
def msgBadStart (n : Nat) : String := toString n ++ "번째 시작 시간이 올바르지 않습니다."
def msgBadEnd (n : Nat) : String := toString n ++ "번째 종료 시간이 올바르지 않습니다."
def msgBadOrder (n : Nat) : String := toString n ++ "번째 시간의 시작/종료 순서를 확인해 주세요."
def msgNoTask (n : Nat) : String := toString n ++ "번째 할 일을 입력해 주세요."
def msgOverlap : String := "시간 블록이 서로 겹치지 않도록 조정해 주세요."

structure NormEntry where
  start : String
  end_ : String
  label : String
  startMin : Int
  endMin : Int
deriving DecidableEq

/-- Normalized label text: array labels join with `" / "` then trim,
string labels trim, absent labels give `""` (`String(label ?? "")`). -/
def normLabel : LabelField → String
  | LabelField.arr la => jsTrim (jsJoinWith jsElemString " / " la)
  | LabelField.str s => jsTrim s
  | LabelField.none => ""

/-- Normalized task list: trim each entry, drop empties
(absent `tasks` gives `[]`). -/
def normTasks (tasks : Option (List String)) : List String :=
  ((tasks.getD []).map jsTrim).filter fun t => t.length > 0

/-- The per-block normalization/check of `validateSchedule` (`index` is the
0-based position; messages are 1-indexed).  The source's separate `!start`
test is subsumed: `toMinutes ""` is already `NaN`, with the same message. -/
def normalizeEntry (index : Nat) (b : TimeBlock) : Except String NormEntry :=
  let start := jsTrim b.start
  let end_ := jsTrim b.end_
  let label := normLabel b.label
  let tasks := normTasks b.tasks
  match toMinutes start, toMinutes end_ with
  | Option.none, _ => Except.error (msgBadStart (index + 1))
  | some _, Option.none => Except.error (msgBadEnd (index + 1))
  | some startMin, some endMin =>
    if startMin ≥ endMin then Except.error (msgBadOrder (index + 1))
    else if label = "" ∧ tasks = [] then Except.error (msgNoTask (index + 1))
    else Except.ok ⟨start, end_, label, startMin, endMin⟩

/-- The adjacent-pair walk over the sorted entries: `false` exactly when
some adjacent pair has `current.startMin < previous.endMin`. -/
def noOverlap : List NormEntry → Bool
  | [] => true
  | [_] => true
  | a :: b :: rest => if b.startMin < a.endMin then false else noOverlap (b :: rest)

/-- `validateSchedule(blocks)`: empty check, per-block checks in input order
(first error wins), then the strict overlap check over the entries sorted by
start minute. -/
def validateSchedule (blocks : List TimeBlock) : Except String Unit :=
  if blocks.isEmpty then Except.error msgEmptySchedule
  else
    let normalized := blocks.enum.map fun p => normalizeEntry p.1 p.2
    match normalized.findSome? (fun e =>
        match e with | Except.error m => some m | Except.ok _ => Option.none) with
    | some m => Except.error m
    | Option.none =>
      let entries := normalized.filterMap Except.toOption
      let sorted := List.insertionSort
        (fun a b : NormEntry => a.startMin ≤ b.startMin) entries
      if noOverlap sorted then Except.ok () else Except.error msgOverlap

/-! ## Calendar arithmetic (JS `Date`) -/

/-- Days since 1970-01-01 of the civil date `(y, m, d)` with `m ∈ [1, 12]`
and arbitrary `d` (day overflow simply adds days, exactly JS `Date`
normalization).  Proleptic Gregorian calendar. -/
def daysFromCivil (y m d : Int) : Int :=
  let yAdj := if m ≤ 2 then y - 1 else y
  let era := Int.fdiv yAdj 400
  let yoe := yAdj - era * 400
  let mp := if m > 2 then m - 3 else m + 9
  let doy := Int.fdiv (153 * mp + 2) 5 + d - 1
  let doe := yoe * 365 + Int.fdiv yoe 4 - Int.fdiv yoe 100 + doy
  era * 146097 + doe - 719468

/-- Civil date `(year, month ∈ [1,12], day)` of a days-since-epoch count. -/
def civilFromDays (z : Int) : Int × Int × Int :=
  let z' := z + 719468
  let era := Int.fdiv z' 146097
  let doe := z' - era * 146097
  let yoe := Int.fdiv (doe - Int.fdiv doe 1460 + Int.fdiv doe 36524 - Int.fdiv doe 146096) 365
  let y := yoe + era * 400
  let doy := doe - (365 * yoe + Int.fdiv yoe 4 - Int.fdiv yoe 100)
  let mp := Int.fdiv (5 * doy + 2) 153
  let d := doy - Int.fdiv (153 * mp + 2) 5 + 1
  let m := mp + (if mp < 10 then 3 else -9)
  (if m ≤ 2 then y + 1 else y, m, d)

/-- Epoch-day count of JS `new Date(year, monthIndex, day)` (local fields):
two-digit years map to 1900+year, out-of-range month indices roll over into
years, out-of-range days roll over into months. -/
def jsDateDays (year monthIndex day : Int) : Int :=
  let yAdj := if 0 ≤ year ∧ year ≤ 99 then year + 1900 else year
  let total := yAdj * 12 + monthIndex
  let y2 := Int.fdiv total 12
  let m2 := Int.emod total 12 + 1
  daysFromCivil y2 m2 day

/-- JS `Date.prototype.getDay`: 0 = Sunday.  1970-01-01 was a Thursday (4);
the ECMA `modulo` is non-negative, i.e. `Int.emod`. -/
def jsGetDay (days : Int) : Int := Int.emod (days + 4) 7

/-- JS `Date.prototype.getMonth` (0-based month). -/
def jsGetMonth (days : Int) : Int := (civilFromDays days).2.1 - 1

/-- JS `Date.prototype.getDate` (1-based day of month). -/
def jsGetDate (days : Int) : Int := (civilFromDays days).2.2

/-! ## Event matcher (`src/app/elder/page.tsx`) -/

/-- `parseDateKey`: split on `"-"`, coerce the first three parts with
`Number`, fail (`null`) when any part is missing, non-numeric, or zero
(JS falsiness of `NaN` and `0`).  The parts of a date key are digit runs,
for which `Number` is modelled by `digitsVal`. -/
def parseDateKey (value : String) : Option (Nat × Nat × Nat) :=
  match jsSplitDash value with
  | y :: m :: d :: _ =>
    if y ≠ "" ∧ y.data.all Char.isDigit ∧ m ≠ "" ∧ m.data.all Char.isDigit ∧
        d ≠ "" ∧ d.data.all Char.isDigit then
      let yv := digitsVal y.data
      let mv := digitsVal m.data
      let dv := digitsVal d.data
      if yv ≠ 0 ∧ mv ≠ 0 ∧ dv ≠ 0 then some (yv, mv, dv) else Option.none
    else Option.none
  | _ => Option.none

/-- `eventOccursOnDate(event, dateKey)`. -/
def eventOccursOnDate (event : CalendarEvent) (dateKey : String) : Bool :=
  let rep := event.repeat_.getD RepeatKind.none
  if rep = RepeatKind.none then
    jsStrLe event.startDate dateKey && jsStrLe dateKey event.endDate
  else if jsStrLt dateKey event.startDate then false
  else
    match parseDateKey dateKey, parseDateKey event.startDate with
    | some dv, some bv =>
      let dd := jsDateDays (dv.1 : Int) ((dv.2.1 : Int) - 1) (dv.2.2 : Int)
      let bd := jsDateDays (bv.1 : Int) ((bv.2.1 : Int) - 1) (bv.2.2 : Int)
      match rep with
      | RepeatKind.daily => true
      | RepeatKind.weekly => decide (jsGetDay dd = jsGetDay bd)
      | RepeatKind.yearly =>
        decide (jsGetMonth dd = jsGetMonth bd ∧ jsGetDate dd = jsGetDate bd)
      | RepeatKind.none => false
    | _, _ => false

/-- The sort comparator of `activeEvent` as a non-strict "comes no later
than" relation: JS stable sort places `a` before `b` iff `compare(a,b) ≤ 0`.
`compare` returns `1` when `a` is all-day and `b` is not, `-1` in the
opposite case, and otherwise `toMinutes(a.start) - toMinutes(b.start)`
(a `NaN` comparator value is treated as `0` by ES `SortCompare`). -/
def eventCmpLe (a b : CalendarEvent) : Bool :=
  if a.allDay && !b.allDay then false
  else if !a.allDay && b.allDay then true
  else
    match toMinutes a.start, toMinutes b.start with
    | some x, some y => decide (x ≤ y)
    | _, _ => true

/-- The candidate sort of `activeEvent` (stable, by `eventCmpLe`). -/
def sortEvents (events : List CalendarEvent) : List CalendarEvent :=
  List.insertionSort (fun a b => eventCmpLe a b = true) events

/-- The first-match scan of `activeEvent`: an all-day event matches
unconditionally; a timed event with unparseable times is skipped; a timed
event matches when `startMin ≤ now < endMin`. -/
def matchEvent (now : Int) : List CalendarEvent → Option CalendarEvent
  | [] => Option.none
  | e :: rest =>
    if e.allDay then some e
    else
      match toMinutes e.start, toMinutes e.end_ with
      | some s, some t =>
        if s ≤ now ∧ now < t then some e else matchEvent now rest
      | _, _ => matchEvent now rest

/-- `activeEvent` (the `resolveActiveEvent` of the specification): the
source computes `dateKey = getDateKey(displayDate)` and
`displayMinutes` from the displayed clock; the model takes both directly. -/
def resolveActiveEvent (events : List CalendarEvent) (dateKey : String)
    (nowMinutes : Int) : Option CalendarEvent :=
  if events.isEmpty then Option.none
  else
    let candidates := events.filter fun event => eventOccursOnDate event dateKey
    if candidates.isEmpty then Option.none
    else matchEvent nowMinutes (sortEvents candidates)

/-! ## Alert evaluator (`getAlertMinutesForBlock`, the 15-second `tick`) -/

def alertTargetStr : AlertTarget → String
  | AlertTarget.start => "start"
  | AlertTarget.end_ => "end"

/-- Membership test on stored suppression keys
(`localStorage.getItem(key) === "1"`: the store holds the fired keys). -/
def strMem (key : String) : List String → Bool
  | [] => false
  | k :: rest => if k = key then true else strMem key rest

/-- The dedup/normalize loop of `getAlertMinutesForBlock`: round each value,
drop non-positive or `≥ 1440` minutes, drop duplicates (the source's `seen`
set always holds exactly the emitted minutes).  All modelled values are
finite rationals, so the `Number.isFinite` test always passes. -/
def normAlertGo (acc : List Int) : List ℚ → List Int
  | [] => acc
  | v :: rest =>
    let minute := jsRound v
    if minute ≤ 0 ∨ DAY_MINUTES ≤ minute ∨ minute ∈ acc then normAlertGo acc rest
    else normAlertGo (acc ++ [minute]) rest

/-- `getAlertMinutesForBlock`: the block's own non-empty `alertMinutes`,
else `DEFAULT_ALERT_MINUTES`, normalized. -/
def getAlertMinutesForBlock (block : BuiltBlock) : List Int :=
  let raw := match block.alertMinutes with
    | some l => if l.isEmpty then DEFAULT_ALERT_MINUTES else l
    | Option.none => DEFAULT_ALERT_MINUTES
  normAlertGo [] raw

/-- The inner `for (const minuteBefore of alertMinutes)` loop of `tick`:
returns `(suppressionKey, alertType, message)` of the first due,
unsuppressed alert minute. -/
def scanMinutes (dateKey : String) (now : Int) (b : BuiltBlock) (baseMin : Int)
    (tgt : AlertTarget) (store : List String) :
    List Int → Option (String × String × String)
  | [] => Option.none
  | m :: rest =>
    let targetMinute := baseMin - m
    if targetMinute < 0 ∨ DAY_MINUTES ≤ targetMinute then
      scanMinutes dateKey now b baseMin tgt store rest
    else if targetMinute ≠ now then
      scanMinutes dateKey now b baseMin tgt store rest
    else
      let type := alertTargetStr tgt ++ toString m
      let key := "alert_" ++ dateKey ++ "_" ++ b.start ++ "-" ++ b.end_ ++ "_" ++ type
      if strMem key store then scanMinutes dateKey now b baseMin tgt store rest
      else
        let message :=
          match tgt with
          | AlertTarget.end_ => toString m ++ "분 남았어요\n" ++ b.label
          | AlertTarget.start => toString m ++ "분 전이에요\n" ++ b.label
        some (key, type, message)

/-- The outer block loop of `tick` (index-carrying): skip blocks marked
done, skip blocks whose anchor time fails to parse, stop at the first fired
alert. -/
def tickGo (dateKey : String) (now : Int) (done : List Nat) (store : List String) :
    Nat → List BuiltBlock → Option (String × String × String)
  | _, [] => Option.none
  | i, b :: rest =>
    if i ∈ done then tickGo dateKey now done store (i + 1) rest
    else
      let tgt := b.alertTarget.getD DEFAULT_ALERT_TARGET
      match (match tgt with
             | AlertTarget.end_ => toMinutes b.end_
             | AlertTarget.start => toMinutes b.start) with
      | Option.none => tickGo dateKey now done store (i + 1) rest
      | some baseMin =>
        match scanMinutes dateKey now b baseMin tgt store (getAlertMinutesForBlock b) with
        | some r => some r
        | Option.none => tickGo dateKey now done store (i + 1) rest

/-- One alert-evaluation tick: at most one alert fires (the scan stops at
the first due, unsuppressed alert); when it fires, its suppression key is
written to the store (`localStorage.setItem(key, "1")`). -/
def tick (blocks : List BuiltBlock) (done : List Nat) (store : List String)
    (dateKey : String) (now : Int) : Option (String × String) × List String :=
  match tickGo dateKey now done store 0 blocks with
  | some r => (some (r.2.1, r.2.2), r.1 :: store)
  | Option.none => (Option.none, store)

/-! ## Storage reads (`src/lib/storage.ts`) -/

/-- The outcome of reading a storage key: the key is absent, the stored text
fails `JSON.parse` (the `catch` branch), or it parses to a JSON value. -/
inductive StoredValue where
  | missing
  | malformed
  | parsed (value : Json)

/-- Structural equality of JSON primitives; arrays and objects compare by
reference in a JS `Set` and are kept as distinct entries. -/
def jsPrimEq : Json → Json → Bool
  | Json.null, Json.null => true
  | Json.bool a, Json.bool b => a == b
  | Json.num a, Json.num b => a == b
  | Json.str a, Json.str b => a == b
  | _, _ => false

/-- `new Set(list)`: first-occurrence deduplication. -/
def jsSetGo (acc : List Json) : List Json → List Json
  | [] => acc
  | x :: rest =>
    if acc.any (fun y => jsPrimEq y x) then jsSetGo acc rest
    else jsSetGo (acc ++ [x]) rest

/-- `loadDoneSet(dateKey)`: absent key or malformed JSON give the empty set;
a non-array payload gives `new Set([])`. -/
def loadDoneSet (v : StoredValue) : List Json :=
  match v with
  | StoredValue.missing => []
  | StoredValue.malformed => []
  | StoredValue.parsed j =>
    match j with
    | Json.arr xs => jsSetGo [] xs
    | _ => []

/-- First-match association lookup with decidable string equality. -/
def lookupStr (name : String) : List (String × Json) → Option Json
  | [] => Option.none
  | (k, v) :: rest => if k = name then some v else lookupStr name rest

/-- Object-field lookup (`record.name`); non-objects have none of the
accessed fields.  JSON object keys are unique after `JSON.parse`. -/
def getField (j : Json) (name : String) : Option Json :=
  match j with
  | Json.obj fields => lookupStr name fields
  | _ => Option.none

def asStr (o : Option Json) : Option String :=
  match o with
  | some (Json.str s) => some s
  | _ => Option.none

/-- `item && typeof item === "object"` (arrays included, `null` excluded). -/
def isObjLike : Json → Bool
  | Json.obj _ => true
  | Json.arr _ => true
  | _ => false

/-- The `DATE_REGEX` test `^\d{4}-\d{2}-\d{2}$`. -/
def isDateRegex (s : String) : Bool :=
  match s.data with
  | [a, b, c, d, e, f, g, h, i, j] =>
    a.isDigit && b.isDigit && c.isDigit && d.isDigit && e == '-' &&
    f.isDigit && g.isDigit && h == '-' && i.isDigit && j.isDigit
  | _ => false

/-- `normalizeEvent(item)` from `storage.ts`. -/
def normalizeEvent (item : Json) : Option CalendarEvent :=
  let rawStartDate :=
    match asStr (getField item "startDate") with
    | some s => s
    | Option.none => (asStr (getField item "date")).getD ""
  let rawEndDate :=
    match asStr (getField item "endDate") with
    | some s => s
    | Option.none => (asStr (getField item "date")).getD ""
  let label := jsTrim ((asStr (getField item "label")).getD "")
  let allDay :=
    match getField item "allDay" with
    | some (Json.bool true) => true
    | _ => false
  let rep : RepeatKind :=
    match asStr (getField item "repeat") with
    | some "none" => RepeatKind.none
    | some "daily" => RepeatKind.daily
    | some "weekly" => RepeatKind.weekly
    | some "yearly" => RepeatKind.yearly
    | _ => RepeatKind.none
  let startValue :=
    match asStr (getField item "start") with
    | some s => s
    | Option.none => if allDay then "00:00" else ""
  let endValue :=
    match asStr (getField item "end") with
    | some s => s
    | Option.none => if allDay then "23:59" else ""
  if ¬ (isDateRegex rawStartDate = true ∧ isDateRegex rawEndDate = true) then Option.none
  else if label = "" then Option.none
  else
    let start := if allDay then "00:00" else startValue
    let end_ := if allDay then (if endValue = "" then "23:59" else endValue) else endValue
    match toMinutes start, toMinutes end_ with
    | some s, some e =>
      if s ≥ e then Option.none
      else
        let startDate := if jsStrLt rawEndDate rawStartDate then rawEndDate else rawStartDate
        let endDate := if jsStrLt rawEndDate rawStartDate then rawStartDate else rawEndDate
        let defaultId :=
          startDate ++ "_" ++ endDate ++ "_" ++ start ++ "_" ++ end_ ++ "_" ++ label
        let id :=
          match asStr (getField item "id") with
          | some i => if jsTrim i = "" then defaultId else i
          | Option.none => defaultId
        some { id := id, startDate := startDate, endDate := endDate,
               start := start, end_ := end_, label := label,
               allDay := allDay, repeat_ := some rep, source := Option.none }
    | _, _ => Option.none

/-- `loadEvents()`: absent key, malformed JSON, or a non-array payload give
`[]`; array entries pass the object check and `normalizeEvent`, malformed
records dropping out. -/
def loadEvents (v : StoredValue) : List CalendarEvent :=
  match v with
  | StoredValue.missing => []
  | StoredValue.malformed => []
  | StoredValue.parsed j =>
    match j with
    | Json.arr data =>
      data.filterMap fun item =>
        if isObjLike item then normalizeEvent item else Option.none
    | _ => []

/-- The per-record normalization of `loadSchedule`. -/
def normalizeScheduleRecord (item : Json) : Option TimeBlock :=
  if ¬ (isObjLike item = true) then Option.none
  else
    match asStr (getField item "start"), asStr (getField item "end") with
    | some start, some end_ =>
      let label : LabelField :=
        match getField item "label" with
        | some (Json.str s) => LabelField.str s
        | some (Json.arr la) => LabelField.arr la
        | _ => LabelField.none
      let tasks : Option (List String) :=
        match getField item "tasks" with
        | some (Json.arr ts) => some (ts.map jsToString)
        | _ => Option.none
      let alertTarget : Option AlertTarget :=
        match asStr (getField item "alertTarget") with
        | some "start" => some AlertTarget.start
        | some "end" => some AlertTarget.end_
        | _ => Option.none
      let alertMinutes : Option (List ℚ) :=
        match getField item "alertMinutes" with
        | some (Json.arr vs) =>
          let minutes := ((vs.filterMap jsToNumber).filter fun q => 0 < q).map
            fun q => ((jsRound q : Int) : ℚ)
          if minutes.isEmpty then Option.none else some minutes
        | _ => Option.none
      some { start := start, end_ := end_, label := label, tasks := tasks,
             alertMinutes := alertMinutes, alertTarget := alertTarget }
    | _, _ => Option.none

/-- `loadSchedule()`: absent key, malformed JSON, or a non-array payload
give `null`; otherwise records are normalized (malformed ones dropped) and
the result is returned only when it passes `validateSchedule`. -/
def loadSchedule (v : StoredValue) : Option (List TimeBlock) :=
  match v with
  | StoredValue.missing => Option.none
  | StoredValue.malformed => Option.none
  | StoredValue.parsed j =>
    match j with
    | Json.arr data =>
      let blocks := data.filterMap normalizeScheduleRecord
      match validateSchedule blocks with
      | Except.ok _ => some blocks
      | Except.error _ => Option.none
    | _ => Option.none

/-! ## Statement-level vocabulary and concrete fixtures -/

/-- Per-slice length of the `buildBlocks` split. -/
def sliceLen (base rem : Int) (idx : Nat) : Int :=
  base + (if (idx : Int) < rem then 1 else 0)

/-- Total length of `k` consecutive slices starting at slice `idx`. -/
def slicesSum (base rem : Int) : Nat → Nat → Int
  | _, 0 => 0
  | idx, k + 1 => sliceLen base rem idx + slicesSum base rem (idx + 1) k

/-- A schedule block passing the per-block conditions of `validateSchedule`,
stated in primitive terms: both trimmed times parse, start before end, and a
non-empty label or a non-empty task after trimming. -/
def blockOk (b : TimeBlock) : Bool :=
  match toMinutes (jsTrim b.start), toMinutes (jsTrim b.end_) with
  | some s, some e =>
    decide (s < e) && (decide (normLabel b.label ≠ "") || decide (normTasks b.tasks ≠ []))
  | _, _ => false

/-- The `(startMin, endMin)` pairs of the blocks whose trimmed times parse. -/
def resolvedIntervals (bs : List TimeBlock) : List (Int × Int) :=
  bs.filterMap fun b =>
    match toMinutes (jsTrim b.start), toMinutes (jsTrim b.end_) with
    | some s, some t => some (s, t)
    | _, _ => Option.none

/-- After sorting the resolved intervals by start minute, no adjacent pair
overlaps: each pair's end is at most its successor's start (touching
boundaries allowed). -/
def sortedIntervalsOk (bs : List TimeBlock) : Prop :=
  List.Chain' (fun p c => p.2 ≤ c.1)
    (List.insertionSort (fun a b : Int × Int => a.1 ≤ b.1) (resolvedIntervals bs))


/-- Invariant of the fallback scan's `(nextIndex, nextStart)` accumulator
over the processed prefix `seen`: empty while no processed start is
`≥ now`, else the first index achieving the minimal such start. -/
def NextOk (now : Int) (seen : List (Nat × BuiltBlock)) : Option (Nat × Int) → Prop
  | Option.none => ∀ p ∈ seen, ¬ (p.2.startMin ≥ now)
  | some q => (∃ b : BuiltBlock, (q.1, b) ∈ seen ∧ b.startMin = q.2) ∧ q.2 ≥ now ∧
      ∀ p ∈ seen, p.2.startMin ≥ now → q.2 ≤ p.2.startMin

/-- Invariant of the fallback scan's `(prevIndex, prevStart)` accumulator:
empty while no processed start is `≤ now`, else the first index achieving
the maximal such start. -/
def PrevOk (now : Int) (seen : List (Nat × BuiltBlock)) : Option (Nat × Int) → Prop
  | Option.none => ∀ p ∈ seen, ¬ (p.2.startMin ≤ now)
  | some q => (∃ b : BuiltBlock, (q.1, b) ∈ seen ∧ b.startMin = q.2) ∧ q.2 ≤ now ∧
      ∀ p ∈ seen, p.2.startMin ≤ now → p.2.startMin ≤ q.2

/-- Concrete fixture: an all-day event on 2024-05-01. -/
def exEvAllDay : CalendarEvent :=
  { id := "a", startDate := "2024-05-01", endDate := "2024-05-01",
    start := "00:00", end_ := "23:59", label := "생일", allDay := true,
    repeat_ := some RepeatKind.none }

/-- Concrete fixture: a timed 10:00–11:00 event on 2024-05-01. -/
def exEvTimed : CalendarEvent :=
  { id := "t", startDate := "2024-05-01", endDate := "2024-05-01",
    start := "10:00", end_ := "11:00", label := "병원", allDay := false,
    repeat_ := some RepeatKind.none }

/-- Concrete fixture: a yearly event anchored at 2020-03-15. -/
def exEvYearly : CalendarEvent :=
  { id := "y", startDate := "2020-03-15", endDate := "2020-03-15",
    start := "10:00", end_ := "11:00", label := "기념일", allDay := false,
    repeat_ := some RepeatKind.yearly }

/-- Concrete fixture: a built block 09:00–10:00 with `alertMinutes=[10,5]`
and `alertTarget="start"`. -/
def exAlertBlock : BuiltBlock :=
  { start := "09:00", end_ := "10:00", startMin := 540, endMin := 600,
    label := "약 복용", alertMinutes := some [10, 5],
    alertTarget := some AlertTarget.start }

/-- The suppression key the 08:50 tick writes for `exAlertBlock`. -/
def exAlertKey : String := "alert_2024-05-01_09:00-10:00_start10"

/-- Concrete fixture: a time block whose `end` precedes its `start`
(both parse), with three tasks. -/
def cexReversedBlock : TimeBlock :=
  { start := "09:10", end_ := "09:00", tasks := some ["A", "B", "C"] }

/-- Concrete fixture: the 09:00–09:10 block with tasks `["A","B","C"]`. -/
def exSplitBlock : TimeBlock :=
  { start := "09:00", end_ := "09:10", tasks := some ["A", "B", "C"] }

/-- The rational 2/5 = 0.4 in reduced form. -/
def ratTwoFifths : ℚ := ⟨2, 5, by norm_num, by norm_num⟩

/-- Concrete fixture: a persisted schedule whose single record carries
`alertMinutes: [0.4]`. -/
def cexScheduleJson : Json := Json.arr [Json.obj [
  ("start", Json.str "09:00"), ("end", Json.str "10:00"),
  ("label", Json.str "물 마시기"), ("alertMinutes", Json.arr [Json.num ratTwoFifths])]]

/-- Array test (`Array.isArray`). -/
def isArr : Json → Bool
  | Json.arr _ => true
  | _ => false

/-- The block `loadSchedule` produces from `cexScheduleJson`. -/
def cexLoadedBlock : TimeBlock :=
  { start := "09:00", end_ := "10:00", label := LabelField.str "물 마시기",
    tasks := Option.none, alertMinutes := some [(0 : ℚ)],
    alertTarget := Option.none }

/-- Concrete fixture: a persisted events array with one valid record. -/
def exEventsJson : Json := Json.arr [Json.obj [
  ("startDate", Json.str "2024-05-01"), ("endDate", Json.str "2024-05-01"),
  ("label", Json.str "병원"), ("start", Json.str "10:00"),
  ("end", Json.str "11:00")]]

/-- The event `loadEvents` produces from `exEventsJson`. -/
def exLoadedEvent : CalendarEvent :=
  { id := "2024-05-01_2024-05-01_10:00_11:00_병원",
    startDate := "2024-05-01", endDate := "2024-05-01",
    start := "10:00", end_ := "11:00", label := "병원", allDay := false,
    repeat_ := some RepeatKind.none, source := Option.none }

/-! ## Theorems -/

/-- C7: for an event list whose candidates on the query date are exactly one
all-day event and one timed event running 10:00–11:00, the active-event
resolution evaluated at clock minute 10:30 (630) returns the timed event. -/
theorem resolveActiveEvent_timed_wins_example :
    eventOccursOnDate exEvAllDay "2024-05-01" = true ∧
    eventOccursOnDate exEvTimed "2024-05-01" = true ∧
    exEvAllDay.allDay = true ∧ exEvTimed.allDay = false ∧
    toMinutes exEvTimed.start = some 600 ∧ toMinutes exEvTimed.end_ = some 660 ∧
    resolveActiveEvent [exEvAllDay, exEvTimed] "2024-05-01" 630 = some exEvTimed := by
  decide

set_option maxRecDepth 10000 in
set_option maxHeartbeats 4000000 in
/-- All 1441 in-range minute values round-trip (bulk evaluation). -/
theorem toMinutes_minutesToTime_all :
    ((List.range 1441).all
      fun m => decide (toMinutes (minutesToTime (m : Int)) = some (m : Int))) = true := by
  decide

/-- C8: for every integer `m` with `0 ≤ m ≤ 1440`,
`toMinutes (minutesToTime m) = m`; in particular the end-of-day special case
round-trips as `minutesToTime 1440 = "24:00"` and
`toMinutes "24:00" = 1440`. -/
theorem toMinutes_minutesToTime_roundTrip (m : Nat) (hm : m ≤ 1440) :
    toMinutes (minutesToTime (m : Int)) = some (m : Int) ∧
    minutesToTime 1440 = "24:00" ∧ toMinutes "24:00" = some 1440 := by
  refine ⟨?_, by decide, by decide⟩
  have h1 := List.all_eq_true.mp toMinutes_minutesToTime_all m
    (List.mem_range.mpr (by omega))
  exact of_decide_eq_true h1

/-- Witness for C8 at the end-of-day value 1440. -/
theorem toMinutes_minutesToTime_roundTrip_witness :
    toMinutes (minutesToTime (1440 : Nat)) = some ((1440 : Nat) : Int) ∧
    minutesToTime 1440 = "24:00" ∧ toMinutes "24:00" = some 1440 :=
  toMinutes_minutesToTime_roundTrip 1440 (by decide)

/-- C6: `eventOccursOnDate` returns, for repeat `"none"`, whether `dateKey`
lies within `[startDate, endDate]` inclusive under fixed-width string
comparison; for any recurring repeat it returns `false` for every date key
before `startDate`, and otherwise (for parseable date keys): always `true`
for `"daily"`, `true` exactly when the date shares `startDate`'s day-of-week
for `"weekly"`, and `true` exactly when the date shares `startDate`'s month
and day-of-month for `"yearly"`; in particular the yearly event anchored at
2020-03-15 occurs on 2024-03-15 but not on 2024-03-16 nor on 2019-03-15. -/
theorem eventOccursOnDate_spec :
    (∀ (e : CalendarEvent) (dk : String),
      e.repeat_.getD RepeatKind.none = RepeatKind.none →
      eventOccursOnDate e dk = (jsStrLe e.startDate dk && jsStrLe dk e.endDate)) ∧
    (∀ (e : CalendarEvent) (dk : String),
      e.repeat_.getD RepeatKind.none ≠ RepeatKind.none →
      jsStrLt dk e.startDate = true → eventOccursOnDate e dk = false) ∧
    (∀ (e : CalendarEvent) (dk : String) (dv bv : Nat × Nat × Nat),
      e.repeat_.getD RepeatKind.none = RepeatKind.daily →
      jsStrLt dk e.startDate = false →
      parseDateKey dk = some dv → parseDateKey e.startDate = some bv →
      eventOccursOnDate e dk = true) ∧
    (∀ (e : CalendarEvent) (dk : String) (dv bv : Nat × Nat × Nat),
      e.repeat_.getD RepeatKind.none = RepeatKind.weekly →
      jsStrLt dk e.startDate = false →
      parseDateKey dk = some dv → parseDateKey e.startDate = some bv →
      (eventOccursOnDate e dk = true ↔
        jsGetDay (jsDateDays (dv.1 : Int) ((dv.2.1 : Int) - 1) (dv.2.2 : Int)) =
        jsGetDay (jsDateDays (bv.1 : Int) ((bv.2.1 : Int) - 1) (bv.2.2 : Int)))) ∧
    (∀ (e : CalendarEvent) (dk : String) (dv bv : Nat × Nat × Nat),
      e.repeat_.getD RepeatKind.none = RepeatKind.yearly →
      jsStrLt dk e.startDate = false →
      parseDateKey dk = some dv → parseDateKey e.startDate = some bv →
      (eventOccursOnDate e dk = true ↔
        (jsGetMonth (jsDateDays (dv.1 : Int) ((dv.2.1 : Int) - 1) (dv.2.2 : Int)) =
         jsGetMonth (jsDateDays (bv.1 : Int) ((bv.2.1 : Int) - 1) (bv.2.2 : Int)) ∧
         jsGetDate (jsDateDays (dv.1 : Int) ((dv.2.1 : Int) - 1) (dv.2.2 : Int)) =
         jsGetDate (jsDateDays (bv.1 : Int) ((bv.2.1 : Int) - 1) (bv.2.2 : Int))))) ∧
    (eventOccursOnDate exEvYearly "2024-03-15" = true ∧
     eventOccursOnDate exEvYearly "2024-03-16" = false ∧
     eventOccursOnDate exEvYearly "2019-03-15" = false) := by
  refine ⟨?_, ?_, ?_, ?_, ?_, by decide⟩
  · intro e dk h
    simp [eventOccursOnDate, h]
  · intro e dk h h2
    simp [eventOccursOnDate, h, h2]
  · intro e dk dv bv h h2 h3 h4
    simp [eventOccursOnDate, h, h2, h3, h4]
  · intro e dk dv bv h h2 h3 h4
    simp [eventOccursOnDate, h, h2, h3, h4]
  · intro e dk dv bv h h2 h3 h4
    simp [eventOccursOnDate, h, h2, h3, h4]

/-- Witness for C6 on a concrete non-repeating event. -/
theorem eventOccursOnDate_spec_witness :
    eventOccursOnDate exEvAllDay "2024-06-01" =
      (jsStrLe exEvAllDay.startDate "2024-06-01" &&
       jsStrLe "2024-06-01" exEvAllDay.endDate) :=
  eventOccursOnDate_spec.1 exEvAllDay "2024-06-01" (by decide)

/-- The inner alert-minute scan only fires alerts whose suppression key is
not yet in the store. -/
theorem scanMinutes_fresh (dk : String) (now : Int) (b : BuiltBlock)
    (base : Int) (tgt : AlertTarget) (store : List String) :
    ∀ (ms : List Int) (r : String × String × String),
      scanMinutes dk now b base tgt store ms = some r → strMem r.1 store = false := by
  intro ms
  induction ms with
  | nil => intro r h; simp [scanMinutes] at h
  | cons m rest ih =>
    intro r h
    simp only [scanMinutes] at h
    split at h
    · exact ih r h
    · split at h
      · exact ih r h
      · split at h
        · exact ih r h
        · next hmem =>
          cases h
          simpa using hmem

/-- The block scan of `tick` only fires alerts whose suppression key is not
yet in the store. -/
theorem tickGo_fresh (dk : String) (now : Int) (done : List Nat)
    (store : List String) :
    ∀ (blocks : List BuiltBlock) (i : Nat) (r : String × String × String),
      tickGo dk now done store i blocks = some r → strMem r.1 store = false := by
  intro blocks
  induction blocks with
  | nil => intro i r h; simp [tickGo] at h
  | cons b rest ih =>
    intro i r h
    simp only [tickGo] at h
    split at h
    · exact ih (i + 1) r h
    · split at h
      · exact ih (i + 1) r h
      · next base hbase =>
        split at h
        · rename_i r2 hscan
          cases h
          exact scanMinutes_fresh dk now b base _ store _ _ hscan
        · exact ih (i + 1) r h

/-- C2: on every alert-evaluation tick at most one alert fires (the scan
returns at most one alert and stops there), and an alert whose suppression
key is already marked fired is never fired again: generally, any alert the
scan fires has a key absent from the store; concretely, for a block with
`alertMinutes=[10,5]`, `alertTarget="start"`, `start="09:00"`, a tick at
minute 08:50 (530) fires exactly one `start10` alert and writes its key, and
a repeated tick at the same minute with that key stored fires nothing. -/
theorem tick_fires_once_and_suppresses :
    (∀ (blocks : List BuiltBlock) (done : List Nat) (store : List String)
       (dateKey : String) (now : Int) (i : Nat) (r : String × String × String),
       tickGo dateKey now done store i blocks = some r → strMem r.1 store = false) ∧
    tick [exAlertBlock] [] [] "2024-05-01" 530 =
      (some ("start10", "10분 전이에요\n약 복용"), [exAlertKey]) ∧
    tick [exAlertBlock] [] [exAlertKey] "2024-05-01" 530 =
      (Option.none, [exAlertKey]) := by
  refine ⟨?_, by decide, by decide⟩
  intro blocks done store dateKey now i r h
  exact tickGo_fresh dateKey now done store blocks i r h

/-- Witness for C2: the 08:50 alert fired on an empty store indeed had an
unmarked key. -/
theorem tick_fires_once_and_suppresses_witness :
    strMem exAlertKey [] = false :=
  tick_fires_once_and_suppresses.1 [exAlertBlock] [] [] "2024-05-01" 530 0
    (exAlertKey, "start10", "10분 전이에요\n약 복용") (by decide)


/-- Rounding a positive rational never goes below zero. -/
theorem jsRound_nonneg (q : ℚ) (h : 0 < q) : 0 ≤ jsRound q := by
  have hnum : 0 < q.num := Rat.num_pos.mpr h
  have hden : (0 : Int) < (q.den : Int) := by exact_mod_cast q.den_pos
  apply Int.fdiv_nonneg <;> omega

/-- Any `alertMinutes` list surviving `loadSchedule`'s per-record
normalization is non-empty and consists of non-negative integers. -/
theorem normalizeScheduleRecord_alertMinutes (item : Json) (b : TimeBlock)
    (h : normalizeScheduleRecord item = some b) (l : List ℚ)
    (hl : b.alertMinutes = some l) :
    l ≠ [] ∧ ∀ m ∈ l, ∃ k : Int, m = (k : ℚ) ∧ 0 ≤ k := by
  simp only [normalizeScheduleRecord] at h
  split at h
  · simp at h
  · split at h
    · cases h
      dsimp only at hl
      revert hl
      split
      · split
        · intro hl; simp at hl
        · intro hl
          rename_i vs hvs hne
          cases hl
          constructor
          · simpa using hne
          · intro m hm
            simp only [List.mem_map, List.mem_filter] at hm
            obtain ⟨q, ⟨hq1, hq2⟩, rfl⟩ := hm
            exact ⟨jsRound q, rfl, jsRound_nonneg q (by simpa using hq2)⟩
      · intro hl; simp at hl
    · simp at h

/-- C10 counterexample: the persisted record `alertMinutes: [0.4]` passes
the `value > 0` filter and then rounds to `0`, so `loadSchedule` returns a
block whose `alertMinutes` is the non-empty list `[0]`, which is not a list
of positive integers. -/
theorem loadSchedule_positive_alertMinutes_cex :
    loadSchedule (StoredValue.parsed cexScheduleJson) = some [cexLoadedBlock] ∧
    cexLoadedBlock.alertMinutes = some [(0 : ℚ)] ∧ ¬ (0 : ℚ) > 0 := by
  refine ⟨rfl, rfl, by norm_num⟩

/-- C10 (amended): every non-null list returned by `loadSchedule` satisfies
`validateSchedule`, and every returned block carrying `alertMinutes` carries
a non-empty list of non-negative integers (entries coerced to numbers,
filtered to positive values, then rounded — rounding can reach 0); when the
normalized records fail validation, `loadSchedule` returns null. -/
theorem loadSchedule_validated_and_rounded :
    (∀ (v : StoredValue) (bs : List TimeBlock), loadSchedule v = some bs →
      validateSchedule bs = Except.ok () ∧
      ∀ b ∈ bs, ∀ l, b.alertMinutes = some l →
        l ≠ [] ∧ ∀ m ∈ l, ∃ k : Int, m = (k : ℚ) ∧ 0 ≤ k) ∧
    (∀ (data : List Json) (msg : String),
      validateSchedule (data.filterMap normalizeScheduleRecord) = Except.error msg →
      loadSchedule (StoredValue.parsed (Json.arr data)) = Option.none) := by
  constructor
  · intro v bs h
    match v with
    | StoredValue.missing => simp [loadSchedule] at h
    | StoredValue.malformed => simp [loadSchedule] at h
    | StoredValue.parsed j =>
      match j with
      | Json.null | Json.bool _ | Json.num _ | Json.str _ | Json.obj _ =>
        simp [loadSchedule] at h
      | Json.arr data =>
        simp only [loadSchedule] at h
        split at h
        · rename_i u hval
          cases h
          refine ⟨by cases u; exact hval, ?_⟩
          intro b hb l hl
          obtain ⟨item, _, hitem⟩ := List.mem_filterMap.mp hb
          exact normalizeScheduleRecord_alertMinutes item b hitem l hl
        · simp at h
  · intro data msg h
    simp [loadSchedule, h]

/-- Witness for C10 (amended) on the `[0.4]` fixture. -/
theorem loadSchedule_validated_and_rounded_witness :
    validateSchedule [cexLoadedBlock] = Except.ok () ∧
    ∀ b ∈ [cexLoadedBlock], ∀ l, b.alertMinutes = some l →
      l ≠ [] ∧ ∀ m ∈ l, ∃ k : Int, m = (k : ℚ) ∧ 0 ≤ k :=
  loadSchedule_validated_and_rounded.1 (StoredValue.parsed cexScheduleJson)
    [cexLoadedBlock] rfl

/-- The string order of the model is asymmetric. -/
theorem charListLt_asymm : ∀ a b : List Char,
    charListLt a b = true → charListLt b a = false := by
  intro a
  induction a with
  | nil => intro b h; cases b <;> simp_all [charListLt]
  | cons x xs ih =>
    intro b h
    cases b with
    | nil => simp [charListLt] at h
    | cons y ys =>
      simp only [charListLt] at h ⊢
      split at h
      · rename_i hlt
        rw [if_neg (by omega), if_pos (by omega)]
      · split at h
        · simp at h
        · rename_i h1 h2
          rw [if_neg (by omega), if_neg (by omega)]
          exact ih ys h

/-- Every event produced by `normalizeEvent` is well-formed: fixed-width
dates in order, a non-empty label, and parseable times with start before
end. -/
theorem normalizeEvent_wf (item : Json) (e : CalendarEvent)
    (h : normalizeEvent item = some e) :
    isDateRegex e.startDate = true ∧ isDateRegex e.endDate = true ∧
    jsStrLe e.startDate e.endDate = true ∧ e.label ≠ "" ∧
    ∃ s t : Int, toMinutes e.start = some s ∧ toMinutes e.end_ = some t ∧ s < t := by
  simp only [normalizeEvent] at h
  split at h
  · simp at h
  · split at h
    · simp at h
    · rename_i hreg hlab
      push_neg at hreg
      split at h
      · rename_i s t hs ht
        split at h
        · simp at h
        · rename_i hst
          cases h
          refine ⟨?_, ?_, ?_, hlab, s, t, hs, ht, by omega⟩
          · dsimp only
            split <;> simp [hreg.1, hreg.2]
          · dsimp only
            split <;> simp [hreg.1, hreg.2]
          · dsimp only
            split
            · rename_i hlt
              simp only [jsStrLe, jsStrLt] at hlt ⊢
              simp [charListLt_asymm _ _ hlt]
            · rename_i hlt
              simp only [jsStrLe, jsStrLt] at hlt ⊢
              simp [Bool.not_eq_true] at hlt
              simp [hlt]
      · simp at h

/-- A schedule returned by `loadSchedule` always passed `validateSchedule`. -/
theorem loadSchedule_some_validates :
    ∀ (v : StoredValue) (bs : List TimeBlock), loadSchedule v = some bs →
      validateSchedule bs = Except.ok () := by
  intro v bs h
  match v with
  | StoredValue.missing => simp [loadSchedule] at h
  | StoredValue.malformed => simp [loadSchedule] at h
  | StoredValue.parsed j =>
    match j with
    | Json.null | Json.bool _ | Json.num _ | Json.str _ | Json.obj _ =>
      simp [loadSchedule] at h
    | Json.arr data =>
      simp only [loadSchedule] at h
      split at h
      · rename_i u hval
        cases h
        cases u
        exact hval
      · simp at h

/-- C9: storage reads never fail: absent keys, malformed JSON, and
wrong-shape payloads give the empty set / empty list / null; every event
returned by `loadEvents` is well-formed; a malformed individual record is
dropped without affecting the rest; and a non-null `loadSchedule` result
passed validation. -/
theorem storage_reads_total :
    (loadDoneSet StoredValue.missing = [] ∧ loadDoneSet StoredValue.malformed = [] ∧
     ∀ j : Json, isArr j = false → loadDoneSet (StoredValue.parsed j) = []) ∧
    (loadEvents StoredValue.missing = [] ∧ loadEvents StoredValue.malformed = [] ∧
     ∀ j : Json, isArr j = false → loadEvents (StoredValue.parsed j) = []) ∧
    (loadSchedule StoredValue.missing = Option.none ∧
     loadSchedule StoredValue.malformed = Option.none ∧
     ∀ j : Json, isArr j = false → loadSchedule (StoredValue.parsed j) = Option.none) ∧
    (∀ (v : StoredValue) (e : CalendarEvent), e ∈ loadEvents v →
      isDateRegex e.startDate = true ∧ isDateRegex e.endDate = true ∧
      jsStrLe e.startDate e.endDate = true ∧ e.label ≠ "" ∧
      ∃ s t : Int, toMinutes e.start = some s ∧ toMinutes e.end_ = some t ∧ s < t) ∧
    (∀ (xs : List Json) (x : Json),
      (isObjLike x = false ∨ normalizeEvent x = Option.none) →
      loadEvents (StoredValue.parsed (Json.arr (x :: xs))) =
        loadEvents (StoredValue.parsed (Json.arr xs))) ∧
    (∀ (xs : List Json) (x : Json), normalizeScheduleRecord x = Option.none →
      loadSchedule (StoredValue.parsed (Json.arr (x :: xs))) =
        loadSchedule (StoredValue.parsed (Json.arr xs))) ∧
    (∀ (v : StoredValue) (bs : List TimeBlock), loadSchedule v = some bs →
      validateSchedule bs = Except.ok ()) := by
  refine ⟨⟨rfl, rfl, ?_⟩, ⟨rfl, rfl, ?_⟩, ⟨rfl, rfl, ?_⟩, ?_, ?_, ?_,
    loadSchedule_some_validates⟩
  · intro j hj; cases j <;> simp_all [isArr, loadDoneSet]
  · intro j hj; cases j <;> simp_all [isArr, loadEvents]
  · intro j hj; cases j <;> simp_all [isArr, loadSchedule]
  · intro v e he
    match v with
    | StoredValue.missing => simp [loadEvents] at he
    | StoredValue.malformed => simp [loadEvents] at he
    | StoredValue.parsed j =>
      match j with
      | Json.null | Json.bool _ | Json.num _ | Json.str _ | Json.obj _ =>
        simp [loadEvents] at he
      | Json.arr data =>
        simp only [loadEvents, List.mem_filterMap] at he
        obtain ⟨item, _, hitem⟩ := he
        split at hitem
        · exact normalizeEvent_wf item e hitem
        · simp at hitem
  · intro xs x hx
    rcases hx with hx | hx
    · simp [loadEvents, List.filterMap_cons, hx]
    · cases hob : isObjLike x <;> simp [loadEvents, List.filterMap_cons, hx, hob]
  · intro xs x hx
    simp [loadSchedule, List.filterMap_cons, hx]

/-- Witness for C9 on a concrete stored events array. -/
theorem storage_reads_total_witness :
    isDateRegex exLoadedEvent.startDate = true ∧
    isDateRegex exLoadedEvent.endDate = true ∧
    jsStrLe exLoadedEvent.startDate exLoadedEvent.endDate = true ∧
    exLoadedEvent.label ≠ "" ∧
    ∃ s t : Int, toMinutes exLoadedEvent.start = some s ∧
      toMinutes exLoadedEvent.end_ = some t ∧ s < t :=
  storage_reads_total.2.2.2.1 (StoredValue.parsed exEventsJson) exLoadedEvent
    (by rw [show loadEvents (StoredValue.parsed exEventsJson) = [exLoadedEvent] from rfl]
        exact List.mem_singleton.mpr rfl)

theorem splitGo_length (base rem : Int) (am : Option (List ℚ)) (tgt : AlertTarget) :
    ∀ (ts : List String) (cursor : Int) (idx : Nat),
      (splitGo base rem am tgt cursor idx ts).length = ts.length := by
  intro ts
  induction ts with
  | nil => intro cursor idx; rfl
  | cons t rest ih => intro cursor idx; simp [splitGo, ih]

theorem splitGo_labels (base rem : Int) (am : Option (List ℚ)) (tgt : AlertTarget) :
    ∀ (ts : List String) (cursor : Int) (idx : Nat),
      (splitGo base rem am tgt cursor idx ts).map (fun bb => bb.label) = ts := by
  intro ts
  induction ts with
  | nil => intro cursor idx; rfl
  | cons t rest ih => intro cursor idx; simp [splitGo, ih]

theorem splitGo_inherits (base rem : Int) (am : Option (List ℚ)) (tgt : AlertTarget) :
    ∀ (ts : List String) (cursor : Int) (idx : Nat),
      ∀ bb ∈ splitGo base rem am tgt cursor idx ts,
        bb.alertMinutes = am ∧ bb.alertTarget = some tgt := by
  intro ts
  induction ts with
  | nil => intro cursor idx bb hbb; simp [splitGo] at hbb
  | cons t rest ih =>
    intro cursor idx bb hbb
    simp only [splitGo, List.mem_cons] at hbb
    rcases hbb with rfl | hbb
    · exact ⟨rfl, rfl⟩
    · exact ih _ _ bb hbb

theorem splitGo_get (base rem : Int) (am : Option (List ℚ)) (tgt : AlertTarget) :
    ∀ (ts : List String) (cursor : Int) (idx k : Nat)
      (hk : k < (splitGo base rem am tgt cursor idx ts).length),
      ((splitGo base rem am tgt cursor idx ts).get ⟨k, hk⟩).startMin =
        cursor + slicesSum base rem idx k ∧
      ((splitGo base rem am tgt cursor idx ts).get ⟨k, hk⟩).endMin =
        cursor + slicesSum base rem idx (k + 1) := by
  intro ts
  induction ts with
  | nil => intro cursor idx k hk; simp [splitGo] at hk
  | cons t rest ih =>
    intro cursor idx k hk
    cases k with
    | zero =>
      constructor
      · simp [splitGo, slicesSum]
      · simp [splitGo, slicesSum, sliceLen]
    | succ k =>
      have hk' : k < (splitGo base rem am tgt (cursor + (base + (if (idx : Int) < rem then 1 else 0))) (idx + 1) rest).length := by
        have := hk
        simp [splitGo] at this
        simpa [splitGo_length]
      have h2 := ih (cursor + (base + (if (idx : Int) < rem then 1 else 0))) (idx + 1) k hk'
      constructor
      · show ((splitGo base rem am tgt cursor idx (t :: rest)).get ⟨k + 1, hk⟩).startMin = _
        simp only [splitGo, List.get_cons_succ]
        rw [h2.1]
        simp [slicesSum, sliceLen]
        ring
      · show ((splitGo base rem am tgt cursor idx (t :: rest)).get ⟨k + 1, hk⟩).endMin = _
        simp only [splitGo, List.get_cons_succ]
        rw [h2.2]
        simp [slicesSum, sliceLen]
        ring

theorem slicesSum_formula (base rem : Int) :
    ∀ (k idx : Nat), slicesSum base rem idx k =
      k * base + max 0 (min (k : Int) (rem - idx)) := by
  intro k
  induction k with
  | zero => intro idx; simp [slicesSum]
  | succ k ih =>
    intro idx
    show sliceLen base rem idx + slicesSum base rem (idx + 1) k = _
    rw [ih (idx + 1)]
    unfold sliceLen
    push_cast
    split <;> rename_i h
    · have : ((k : Int) + 1) * base = k * base + base := by ring
      omega
    · have : ((k : Int) + 1) * base = k * base + base := by ring
      omega

theorem slicesSum_total (d : Int) (n : Nat) (hd : 0 ≤ d) (hn : 0 < n) :
    slicesSum (Int.fdiv d n) (Int.tmod d n) 0 n = d := by
  rw [slicesSum_formula]
  have hne : (n : Int) ≠ 0 := by positivity
  have h1 : Int.fdiv d n = d / (n : Int) := Int.fdiv_eq_ediv d (by positivity)
  have h2 : Int.tmod d n = d % (n : Int) := by
    rw [Int.tmod_eq_emod hd (by positivity)]
  have h3 : 0 ≤ d % (n : Int) := Int.emod_nonneg d hne
  have h4 : d % (n : Int) < n := Int.emod_lt_of_pos d (by positivity)
  have h5 : (n : Int) * (d / (n : Int)) + d % (n : Int) = d := Int.ediv_add_emod d n
  rw [h1, h2]
  push_cast
  generalize hX : (n : Int) * (d / (n : Int)) = X at h5 ⊢
  generalize hY : d % (n : Int) = Y at h3 h4 h5 ⊢
  omega

theorem ifEmpty_ne_nil (l : List String) : (if l.isEmpty then [""] else l) ≠ [] := by
  split
  · simp
  · rename_i h
    simpa [List.isEmpty_iff] using h

theorem effectiveTasks_ne_nil (b : TimeBlock) : effectiveTasks b ≠ [] := by
  unfold effectiveTasks
  dsimp only
  exact ifEmpty_ne_nil _

theorem buildBlocks_singleton (b : TimeBlock) : buildBlocks [b] = buildBlockOne b := by
  simp [buildBlocks]

theorem buildBlockOne_split (b : TimeBlock) (s e : Int)
    (hs : toMinutes b.start = some s) (he : toMinutes b.end_ = some e)
    (hn : 2 ≤ (effectiveTasks b).length) :
    buildBlockOne b =
      splitGo (Int.fdiv (e - s) ((effectiveTasks b).length : Int))
        (Int.tmod (e - s) ((effectiveTasks b).length : Int)) b.alertMinutes
        (b.alertTarget.getD DEFAULT_ALERT_TARGET) s 0 (effectiveTasks b) := by
  simp only [buildBlockOne, hs, he]
  rw [if_neg (by omega)]

theorem buildBlocks_per_block (b : TimeBlock) (s e : Int)
    (hs : toMinutes b.start = some s) (he : toMinutes b.end_ = some e) :
    1 ≤ (buildBlocks [b]).length ∧
    (buildBlocks [b]).length = (effectiveTasks b).length ∧
    (buildBlocks [b]).map (fun bb => bb.label) = effectiveTasks b ∧
    ∀ bb ∈ buildBlocks [b], bb.alertMinutes = b.alertMinutes ∧
      bb.alertTarget = some (b.alertTarget.getD DEFAULT_ALERT_TARGET) := by
  rw [buildBlocks_singleton]
  have hne := effectiveTasks_ne_nil b
  have hpos : 1 ≤ (effectiveTasks b).length := by
    cases h : effectiveTasks b with
    | nil => exact absurd h hne
    | cons x xs => simp
  by_cases hn : (effectiveTasks b).length ≤ 1
  · have h1 : (effectiveTasks b).length = 1 := by omega
    obtain ⟨x, hx⟩ := List.length_eq_one.mp h1
    simp only [buildBlockOne, hs, he]
    rw [if_pos (by omega)]
    refine ⟨by simp, by simp [h1], ?_, ?_⟩
    · simp [hx]
    · intro bb hbb
      simp at hbb
      subst hbb
      exact ⟨rfl, rfl⟩
  · rw [buildBlockOne_split b s e hs he (by omega)]
    refine ⟨?_, splitGo_length _ _ _ _ _ _ _, splitGo_labels _ _ _ _ _ _ _, ?_⟩
    · rw [splitGo_length]; omega
    · intro bb hbb
      exact splitGo_inherits _ _ _ _ _ _ _ bb hbb

theorem slicesSum_mono (base rem : Int) (hbase : 0 ≤ base) (a c : Nat) (hac : a ≤ c) :
    slicesSum base rem 0 a ≤ slicesSum base rem 0 c := by
  rw [slicesSum_formula, slicesSum_formula]
  have h1 : (a : Int) * base ≤ (c : Int) * base :=
    mul_le_mul_of_nonneg_right (by exact_mod_cast hac) hbase
  have h2 : (a : Int) ≤ (c : Int) := by exact_mod_cast hac
  generalize (a : Int) * base = A at h1 ⊢
  generalize (c : Int) * base = C at h1 ⊢
  omega

theorem slicesSum_step (base rem : Int) (hrem : 0 ≤ rem) (k : Nat) :
    slicesSum base rem 0 (k + 1) - slicesSum base rem 0 k =
      base + (if (k : Int) < rem then 1 else 0) := by
  rw [slicesSum_formula, slicesSum_formula]
  have hmul : (((k : Nat) + 1 : Nat) : Int) * base = (k : Int) * base + base := by
    push_cast; ring
  rw [hmul]
  generalize (k : Int) * base = K
  split <;> omega

theorem buildBlocks_cover (b : TimeBlock) (s e : Int)
    (hs : toMinutes b.start = some s) (he : toMinutes b.end_ = some e)
    (hse : s ≤ e) (hn : 2 ≤ (effectiveTasks b).length) :
    (((buildBlocks [b])[0]?).map fun bb => bb.startMin) = some s ∧
    (((buildBlocks [b])[(effectiveTasks b).length - 1]?).map fun bb => bb.endMin) = some e ∧
    (∀ (k : Nat) (x y : BuiltBlock), (buildBlocks [b])[k]? = some x →
      (buildBlocks [b])[k + 1]? = some y → x.endMin = y.startMin) ∧
    (∀ (i j : Nat) (x y : BuiltBlock), i < j → (buildBlocks [b])[i]? = some x →
      (buildBlocks [b])[j]? = some y → x.endMin ≤ y.startMin) ∧
    (∀ (k : Nat) (x : BuiltBlock), (buildBlocks [b])[k]? = some x →
      x.endMin - x.startMin =
        Int.fdiv (e - s) ((effectiveTasks b).length : Int) +
          (if (k : Int) < Int.tmod (e - s) ((effectiveTasks b).length : Int) then 1 else 0)) := by
  have hb1 : buildBlocks [b] =
      splitGo (Int.fdiv (e - s) ((effectiveTasks b).length : Int))
        (Int.tmod (e - s) ((effectiveTasks b).length : Int)) b.alertMinutes
        (b.alertTarget.getD DEFAULT_ALERT_TARGET) s 0 (effectiveTasks b) := by
    rw [buildBlocks_singleton]; exact buildBlockOne_split b s e hs he hn
  have hd : (0 : Int) ≤ e - s := by omega
  have hnpos : 0 < (effectiveTasks b).length := by omega
  have hbase : 0 ≤ Int.fdiv (e - s) ((effectiveTasks b).length : Int) :=
    Int.fdiv_nonneg hd (by positivity)
  have hrem : 0 ≤ Int.tmod (e - s) ((effectiveTasks b).length : Int) := by
    rw [Int.tmod_eq_emod hd (by positivity)]
    exact Int.emod_nonneg _ (by positivity)
  have hlen : (buildBlocks [b]).length = (effectiveTasks b).length := by
    rw [hb1, splitGo_length]
  have hget : ∀ (k : Nat) (hk : k < (buildBlocks [b]).length),
      ((buildBlocks [b]).get ⟨k, hk⟩).startMin =
        s + slicesSum (Int.fdiv (e - s) ((effectiveTasks b).length : Int))
          (Int.tmod (e - s) ((effectiveTasks b).length : Int)) 0 k ∧
      ((buildBlocks [b]).get ⟨k, hk⟩).endMin =
        s + slicesSum (Int.fdiv (e - s) ((effectiveTasks b).length : Int))
          (Int.tmod (e - s) ((effectiveTasks b).length : Int)) 0 (k + 1) := by
    intro k hk
    revert hk
    rw [hb1]
    intro hk
    exact splitGo_get (Int.fdiv (e - s) ((effectiveTasks b).length : Int))
      (Int.tmod (e - s) ((effectiveTasks b).length : Int)) b.alertMinutes
      (b.alertTarget.getD DEFAULT_ALERT_TARGET) (effectiveTasks b) s 0 k hk
  have hsome : ∀ (k : Nat) (x : BuiltBlock), (buildBlocks [b])[k]? = some x →
      ∃ hk : k < (buildBlocks [b]).length, x = (buildBlocks [b]).get ⟨k, hk⟩ := by
    intro k x hx
    have hk : k < (buildBlocks [b]).length := by
      by_contra hcon
      rw [List.getElem?_eq_none (by omega)] at hx
      simp at hx
    refine ⟨hk, ?_⟩
    rw [List.getElem?_eq_getElem hk] at hx
    cases hx
    simp [List.get_eq_getElem]
  refine ⟨?_, ?_, ?_, ?_, ?_⟩
  · have h0 : 0 < (buildBlocks [b]).length := by omega
    rw [List.getElem?_eq_getElem h0]
    have := (hget 0 h0).1
    simp only [List.get_eq_getElem] at this
    simp [this, slicesSum]
  · have hl : (effectiveTasks b).length - 1 < (buildBlocks [b]).length := by omega
    rw [List.getElem?_eq_getElem hl]
    have := (hget ((effectiveTasks b).length - 1) hl).2
    simp only [List.get_eq_getElem] at this
    have hsucc : (effectiveTasks b).length - 1 + 1 = (effectiveTasks b).length := by omega
    rw [hsucc] at this
    rw [slicesSum_total (e - s) ((effectiveTasks b).length) hd hnpos] at this
    simp [this]
  · intro k x y hx hy
    obtain ⟨hk, rfl⟩ := hsome k x hx
    obtain ⟨hk1, rfl⟩ := hsome (k + 1) y hy
    rw [(hget k hk).2, (hget (k + 1) hk1).1]
  · intro i j x y hij hx hy
    obtain ⟨hi, rfl⟩ := hsome i x hx
    obtain ⟨hj, rfl⟩ := hsome j y hy
    rw [(hget i hi).2, (hget j hj).1]
    have := slicesSum_mono (Int.fdiv (e - s) ((effectiveTasks b).length : Int))
      (Int.tmod (e - s) ((effectiveTasks b).length : Int)) hbase (i + 1) j (by omega)
    omega
  · intro k x hx
    obtain ⟨hk, rfl⟩ := hsome k x hx
    rw [(hget k hk).2, (hget k hk).1]
    have := slicesSum_step (Int.fdiv (e - s) ((effectiveTasks b).length : Int))
      (Int.tmod (e - s) ((effectiveTasks b).length : Int)) hrem k
    omega

/-- C4 counterexample: a block whose `end` precedes its `start` (both
parse) with three tasks.  `Math.floor` division and the JS `%` remainder
disagree in sign, so the three sub-blocks end at 538, not at the block's
`endMin` 540: the split does not cover `[startMin, endMin]`. -/
theorem buildBlocks_exact_cover_cex :
    toMinutes cexReversedBlock.start = some 550 ∧
    toMinutes cexReversedBlock.end_ = some 540 ∧
    (effectiveTasks cexReversedBlock).length = 3 ∧
    ((buildBlocks [cexReversedBlock]).map fun bb => (bb.startMin, bb.endMin)) =
      [(550, 546), (546, 542), (542, 538)] ∧
    ((buildBlocks [cexReversedBlock])[2]?).map (fun bb => bb.endMin) ≠ some 540 := by
  decide

/-- C4 (amended): for every `TimeBlock` whose `start` and `end` both parse,
`buildBlocks` emits at least one `BuiltBlock` (one per effective task, a
single empty-string task substituted when none remain after trimming), in
task order, each inheriting the parent's `alertMinutes`/`alertTarget`; when
additionally `startMin ≤ endMin` and the effective task list has `n ≥ 2`
entries, the `n` sub-blocks are contiguous, non-overlapping, exactly cover
`[startMin, endMin]`, and the `k`-th has duration
`floor(duration/n) + (1 if k < duration % n)`; e.g. tasks `["A","B","C"]`
over 09:00–09:10 yield durations 4, 3, 3. -/
theorem buildBlocks_split_spec :
    (∀ (b : TimeBlock) (s e : Int), toMinutes b.start = some s →
      toMinutes b.end_ = some e →
      1 ≤ (buildBlocks [b]).length ∧
      (buildBlocks [b]).length = (effectiveTasks b).length ∧
      (buildBlocks [b]).map (fun bb => bb.label) = effectiveTasks b ∧
      ∀ bb ∈ buildBlocks [b], bb.alertMinutes = b.alertMinutes ∧
        bb.alertTarget = some (b.alertTarget.getD DEFAULT_ALERT_TARGET)) ∧
    (∀ (b : TimeBlock) (s e : Int), toMinutes b.start = some s →
      toMinutes b.end_ = some e → s ≤ e → 2 ≤ (effectiveTasks b).length →
      (((buildBlocks [b])[0]?).map fun bb => bb.startMin) = some s ∧
      (((buildBlocks [b])[(effectiveTasks b).length - 1]?).map fun bb => bb.endMin) = some e ∧
      (∀ (k : Nat) (x y : BuiltBlock), (buildBlocks [b])[k]? = some x →
        (buildBlocks [b])[k + 1]? = some y → x.endMin = y.startMin) ∧
      (∀ (i j : Nat) (x y : BuiltBlock), i < j → (buildBlocks [b])[i]? = some x →
        (buildBlocks [b])[j]? = some y → x.endMin ≤ y.startMin) ∧
      (∀ (k : Nat) (x : BuiltBlock), (buildBlocks [b])[k]? = some x →
        x.endMin - x.startMin =
          Int.fdiv (e - s) ((effectiveTasks b).length : Int) +
            (if (k : Int) < Int.tmod (e - s) ((effectiveTasks b).length : Int) then 1
             else 0))) ∧
    ((buildBlocks [exSplitBlock]).map (fun bb => (bb.startMin, bb.endMin, bb.label)) =
      [(540, 544, "A"), (544, 547, "B"), (547, 550, "C")]) :=
  ⟨fun b s e hs he => buildBlocks_per_block b s e hs he,
   fun b s e hs he hse hn => buildBlocks_cover b s e hs he hse hn,
   by decide⟩

/-- Witness for C4 (amended) on the 09:00–09:10 three-task block. -/
theorem buildBlocks_split_spec_witness :
    (((buildBlocks [exSplitBlock])[0]?).map fun bb => bb.startMin) = some 540 :=
  (buildBlocks_split_spec.2.1 exSplitBlock 540 550 rfl rfl (by decide)
    (by decide)).1

theorem normalizeEntry_ok_iff (i : Nat) (b : TimeBlock) :
    (∃ en, normalizeEntry i b = Except.ok en) ↔ blockOk b = true := by
  cases hs : toMinutes (jsTrim b.start) <;> cases he : toMinutes (jsTrim b.end_) <;>
    simp [normalizeEntry, blockOk, hs, he]
  rename_i s e
  constructor
  · rintro ⟨en, hen⟩
    split at hen
    · simp at hen
    · split at hen
      · simp at hen
      · rename_i h1 h2
        push_neg at h2
        refine ⟨by omega, ?_⟩
        by_cases hlab : normLabel b.label = ""
        · exact Or.inr (h2 hlab)
        · exact Or.inl hlab
  · rintro ⟨h1, h2⟩
    rw [if_neg (by omega)]
    rw [if_neg (by tauto)]
    exact ⟨_, rfl⟩

theorem normalizeEntry_ok_fields (i : Nat) (b : TimeBlock) (en : NormEntry)
    (h : normalizeEntry i b = Except.ok en) :
    toMinutes (jsTrim b.start) = some en.startMin ∧
    toMinutes (jsTrim b.end_) = some en.endMin := by
  unfold normalizeEntry at h
  dsimp only at h
  split at h
  · simp at h
  · simp at h
  · rename_i s e hs he
    split at h
    · simp at h
    · split at h
      · simp at h
      · cases h
        exact ⟨hs, he⟩

theorem normalizeEntry_err_msg (i : Nat) (b : TimeBlock) (m : String)
    (h : normalizeEntry i b = Except.error m) :
    m = msgBadStart (i + 1) ∨ m = msgBadEnd (i + 1) ∨
    m = msgBadOrder (i + 1) ∨ m = msgNoTask (i + 1) := by
  unfold normalizeEntry at h
  dsimp only at h
  split at h
  · cases h; exact Or.inl rfl
  · cases h; exact Or.inr (Or.inl rfl)
  · split at h
    · cases h; exact Or.inr (Or.inr (Or.inl rfl))
    · split at h
      · cases h; exact Or.inr (Or.inr (Or.inr rfl))
      · simp at h

theorem allOk_iff : ∀ (bs : List TimeBlock) (i0 : Nat),
    (((List.enumFrom i0 bs).map fun p => normalizeEntry p.1 p.2).findSome?
      (fun e => match e with
        | Except.error m => some m
        | Except.ok _ => Option.none) = Option.none) ↔
      ∀ b ∈ bs, blockOk b = true := by
  intro bs
  induction bs with
  | nil => intro i0; simp [List.enumFrom]
  | cons b rest ih =>
    intro i0
    simp only [List.enumFrom, List.map_cons, List.findSome?_cons]
    cases hb : normalizeEntry i0 b with
    | error m =>
      simp only [hb]
      constructor
      · intro h; simp at h
      · intro h
        have hbo := h b (by simp)
        have := (normalizeEntry_ok_iff i0 b).mpr hbo
        rw [hb] at this
        obtain ⟨en, hen⟩ := this
        simp at hen
    | ok en =>
      simp only [hb]
      rw [ih (i0 + 1)]
      constructor
      · intro h c hc
        rcases List.mem_cons.mp hc with rfl | hc
        · exact (normalizeEntry_ok_iff i0 c).mp ⟨en, hb⟩
        · exact h c hc
      · intro h c hc
        exact h c (List.mem_cons_of_mem b hc)

theorem firstError_go : ∀ (bs : List TimeBlock) (i0 i : Nat) (x : TimeBlock) (m : String),
    bs[i]? = some x →
    (∀ (j : Nat) (y : TimeBlock), j < i → bs[j]? = some y → blockOk y = true) →
    normalizeEntry (i0 + i) x = Except.error m →
    ((List.enumFrom i0 bs).map fun p => normalizeEntry p.1 p.2).findSome?
      (fun e => match e with
        | Except.error msg => some msg
        | Except.ok _ => Option.none) = some m := by
  intro bs
  induction bs with
  | nil => intro i0 i x m hx _ _; simp at hx
  | cons b rest ih =>
    intro i0 i x m hx hbefore herr
    simp only [List.enumFrom, List.map_cons, List.findSome?_cons]
    cases i with
    | zero =>
      simp only [List.getElem?_cons_zero, Option.some_inj] at hx
      subst hx
      rw [show i0 + 0 = i0 from rfl] at herr
      simp [herr]
    | succ j =>
      have hb : blockOk b = true := hbefore 0 b (by omega) (by simp)
      obtain ⟨en, hen⟩ := (normalizeEntry_ok_iff i0 b).mpr hb
      simp only [hen]
      have hx' : rest[j]? = some x := by simpa using hx
      have hbefore' : ∀ (j' : Nat) (y : TimeBlock), j' < j → rest[j']? = some y →
          blockOk y = true := by
        intro j' y hj' hy
        exact hbefore (j' + 1) y (by omega) (by simpa using hy)
      have herr' : normalizeEntry ((i0 + 1) + j) x = Except.error m := by
        rw [show (i0 + 1) + j = i0 + (j + 1) by omega]
        exact herr
      exact ih (i0 + 1) j x m hx' hbefore' herr'

theorem entriesProj : ∀ (bs : List TimeBlock) (i0 : Nat),
    (∀ b ∈ bs, blockOk b = true) →
    ((((List.enumFrom i0 bs).map fun p => normalizeEntry p.1 p.2).filterMap
      Except.toOption).map fun en => (en.startMin, en.endMin)) =
      resolvedIntervals bs := by
  intro bs
  induction bs with
  | nil => intro i0 _; simp [List.enumFrom, resolvedIntervals]
  | cons b rest ih =>
    intro i0 h
    have hb : blockOk b = true := h b (by simp)
    obtain ⟨en, hen⟩ := (normalizeEntry_ok_iff i0 b).mpr hb
    obtain ⟨hf1, hf2⟩ := normalizeEntry_ok_fields i0 b en hen
    simp only [List.enumFrom, List.map_cons, List.filterMap_cons, hen,
      Except.toOption, List.map_cons]
    rw [ih (i0 + 1) (fun c hc => h c (List.mem_cons_of_mem b hc))]
    simp only [resolvedIntervals, List.filterMap_cons, hf1, hf2]

theorem map_orderedInsert_proj (en : NormEntry) :
    ∀ (l : List NormEntry),
      (List.orderedInsert (fun a b : NormEntry => a.startMin ≤ b.startMin) en l).map
        (fun x => (x.startMin, x.endMin)) =
      List.orderedInsert (fun p q : Int × Int => p.1 ≤ q.1) (en.startMin, en.endMin)
        (l.map fun x => (x.startMin, x.endMin)) := by
  intro l
  induction l with
  | nil => rfl
  | cons a rest ih =>
    simp only [List.orderedInsert, List.map_cons]
    by_cases hle : en.startMin ≤ a.startMin
    · rw [if_pos hle, if_pos hle]
      simp
    · rw [if_neg hle, if_neg hle]
      simp [ih]

theorem map_insertionSort_proj : ∀ (l : List NormEntry),
    (List.insertionSort (fun a b : NormEntry => a.startMin ≤ b.startMin) l).map
      (fun x => (x.startMin, x.endMin)) =
    List.insertionSort (fun p q : Int × Int => p.1 ≤ q.1)
      (l.map fun x => (x.startMin, x.endMin)) := by
  intro l
  induction l with
  | nil => rfl
  | cons a rest ih =>
    simp only [List.insertionSort, List.map_cons]
    rw [← ih, map_orderedInsert_proj]

theorem noOverlap_cons_cons (a c : NormEntry) (r : List NormEntry) :
    noOverlap (a :: c :: r) =
      if c.startMin < a.endMin then false else noOverlap (c :: r) := rfl

theorem noOverlap_iff : ∀ (l : List NormEntry),
    noOverlap l = true ↔ List.Chain' (fun a c : NormEntry => a.endMin ≤ c.startMin) l := by
  intro l
  induction l with
  | nil => simp [noOverlap]
  | cons a rest ih =>
    cases rest with
    | nil => simp [noOverlap]
    | cons c rest2 =>
      rw [List.chain'_cons, ← ih, noOverlap_cons_cons]
      constructor
      · intro h
        split at h
        · simp at h
        · rename_i hlt
          exact ⟨by omega, h⟩
      · rintro ⟨h1, h2⟩
        rw [if_neg (by omega)]
        exact h2

theorem noOverlap_sorted_iff (bs : List TimeBlock) (hall : ∀ b ∈ bs, blockOk b = true) :
    (noOverlap (List.insertionSort (fun a b : NormEntry => a.startMin ≤ b.startMin)
      ((((List.enumFrom 0 bs).map fun p => normalizeEntry p.1 p.2).filterMap
        Except.toOption))) = true) ↔ sortedIntervalsOk bs := by
  rw [noOverlap_iff]
  unfold sortedIntervalsOk
  rw [← entriesProj bs 0 hall, ← map_insertionSort_proj, List.chain'_map]

/-- C3: `validateSchedule` returns Ok exactly when the input list is
non-empty, every block passes the per-block conditions (trimmed times parse
with `startMin < endMin` and a non-empty label or task), and, after sorting
the resolved intervals by start minute, no adjacent pair overlaps (touching
boundaries accepted); any violating input yields Err carrying only the
first encountered error: the first failing block's 1-indexed message (in
input order, before the overlap check), or the overlap message when only
the overlap check fails. -/
theorem validateSchedule_spec :
    (∀ bs : List TimeBlock,
      validateSchedule bs = Except.ok () ↔
        (bs ≠ [] ∧ (∀ b ∈ bs, blockOk b = true) ∧ sortedIntervalsOk bs)) ∧
    (∀ (bs : List TimeBlock) (i : Nat) (x : TimeBlock) (m : String),
      bs[i]? = some x →
      (∀ (j : Nat) (y : TimeBlock), j < i → bs[j]? = some y → blockOk y = true) →
      normalizeEntry i x = Except.error m →
      validateSchedule bs = Except.error m) ∧
    (∀ (i : Nat) (b : TimeBlock) (m : String),
      normalizeEntry i b = Except.error m →
      m = msgBadStart (i + 1) ∨ m = msgBadEnd (i + 1) ∨
      m = msgBadOrder (i + 1) ∨ m = msgNoTask (i + 1)) ∧
    (∀ bs : List TimeBlock, bs ≠ [] → (∀ b ∈ bs, blockOk b = true) →
      ¬ sortedIntervalsOk bs → validateSchedule bs = Except.error msgOverlap) := by
  refine ⟨?_, ?_, normalizeEntry_err_msg, ?_⟩
  · intro bs
    by_cases hemp : bs.isEmpty
    · rw [List.isEmpty_iff] at hemp
      subst hemp
      simp [validateSchedule]
    · have hne : bs ≠ [] := by simpa [List.isEmpty_iff] using hemp
      simp only [validateSchedule, hemp, Bool.false_eq_true, if_false]
      unfold List.enum
      cases hfind : ((List.enumFrom 0 bs).map fun p => normalizeEntry p.1 p.2).findSome?
          (fun e => match e with
            | Except.error m => some m
            | Except.ok _ => Option.none) with
      | some m =>
        simp only [hfind]
        constructor
        · intro h; simp at h
        · rintro ⟨_, hall, _⟩
          rw [(allOk_iff bs 0).mpr hall] at hfind
          simp at hfind
      | none =>
        simp only [hfind]
        have hall : ∀ b ∈ bs, blockOk b = true := (allOk_iff bs 0).mp hfind
        rw [← noOverlap_sorted_iff bs hall]
        split
        · rename_i hnov
          simp only [List.filterMap_map] at hnov
          simp [hne, hnov]
          exact hall
        · rename_i hnov
          simp only [Bool.not_eq_true] at hnov
          simp only [List.filterMap_map] at hnov
          simp [hne, hall, hnov]
  · intro bs i x m hx hbefore herr
    have hi : i < bs.length := by
      by_contra hcon
      rw [List.getElem?_eq_none (by omega)] at hx
      simp at hx
    have hemp : bs.isEmpty = false := by
      cases bs
      · simp at hi
      · simp
    simp only [validateSchedule, hemp, Bool.false_eq_true, if_false]
    unfold List.enum
    rw [firstError_go bs 0 i x m hx hbefore (by simpa using herr)]
  · intro bs hne hall hnov
    have hemp : bs.isEmpty = false := by
      cases bs
      · simp at hne
      · simp
    simp only [validateSchedule, hemp, Bool.false_eq_true, if_false]
    unfold List.enum
    rw [(allOk_iff bs 0).mpr hall]
    have : noOverlap (List.insertionSort (fun a b : NormEntry => a.startMin ≤ b.startMin)
        ((((List.enumFrom 0 bs).map fun p => normalizeEntry p.1 p.2).filterMap
          Except.toOption))) = false := by
      rw [← Bool.not_eq_true, noOverlap_sorted_iff bs hall]
      exact hnov
    simp only [List.filterMap_map] at this
    simp [this]

/-- Witness for C3: the default schedule validates. -/
theorem validateSchedule_spec_witness :
    validateSchedule TIME_BLOCKS = Except.ok () :=
  (validateSchedule_spec.1 TIME_BLOCKS).mpr
    ⟨by unfold TIME_BLOCKS; exact List.cons_ne_nil _ _,
     by decide,
     by
      unfold sortedIntervalsOk
      rw [show List.insertionSort (fun a b : Int × Int => a.1 ≤ b.1)
          (resolvedIntervals TIME_BLOCKS) =
          [((0 : Int), (390 : Int)), (390, 540), (540, 690), (690, 810),
           (810, 990), (990, 1110), (1110, 1230), (1230, 1440)] from by decide]
      simp [List.chain'_cons]⟩

theorem findLoop_some_spec (now : Int) : ∀ (blocks : List BuiltBlock) (i0 j : Nat),
    findLoop now i0 blocks = some j →
    ∃ (k : Nat) (x : BuiltBlock), j = i0 + k ∧ blocks[k]? = some x ∧
      blockContains now x = true ∧
      ∀ (k' : Nat) (y : BuiltBlock), k' < k → blocks[k']? = some y →
        blockContains now y = false := by
  intro blocks
  induction blocks with
  | nil => intro i0 j h; simp [findLoop] at h
  | cons b rest ih =>
    intro i0 j h
    simp only [findLoop] at h
    split at h
    · rename_i hc
      cases h
      exact ⟨0, b, by omega, by simp, hc, by omega⟩
    · rename_i hc
      obtain ⟨k, x, hj, hx, hcx, hbef⟩ := ih (i0 + 1) j h
      refine ⟨k + 1, x, by omega, by simpa using hx, hcx, ?_⟩
      intro k' y hk' hy
      cases k' with
      | zero =>
        simp only [List.getElem?_cons_zero, Option.some_inj] at hy
        subst hy
        simpa using hc
      | succ k2 =>
        exact hbef k2 y (by omega) (by simpa using hy)

theorem findLoop_none_spec (now : Int) : ∀ (blocks : List BuiltBlock) (i0 : Nat),
    findLoop now i0 blocks = Option.none →
    ∀ (k : Nat) (x : BuiltBlock), blocks[k]? = some x → blockContains now x = false := by
  intro blocks
  induction blocks with
  | nil => intro i0 _ k x hx; simp at hx
  | cons b rest ih =>
    intro i0 h k x hx
    simp only [findLoop] at h
    split at h
    · simp at h
    · rename_i hc
      cases k with
      | zero =>
        simp only [List.getElem?_cons_zero, Option.some_inj] at hx
        subst hx
        simpa using hc
      | succ k2 =>
        exact ih (i0 + 1) h k2 x (by simpa using hx)

theorem stepNP_preserves (now : Int) (st : Option (Nat × Int) × Option (Nat × Int))
    (seen : List (Nat × BuiltBlock)) (p : Nat × BuiltBlock)
    (hN : NextOk now seen st.1) (hP : PrevOk now seen st.2) :
    NextOk now (seen ++ [p]) (stepNP now st p).1 ∧
    PrevOk now (seen ++ [p]) (stepNP now st p).2 := by
  constructor
  · show NextOk now (seen ++ [p])
      (if p.2.startMin ≥ now && (st.1.all fun q => p.2.startMin < q.2) then
        some (p.1, p.2.startMin) else st.1)
    split
    · rename_i hcond
      simp only [Bool.and_eq_true, decide_eq_true_eq] at hcond
      obtain ⟨hge, hall⟩ := hcond
      refine ⟨⟨p.2, by simp, rfl⟩, hge, ?_⟩
      intro q hq hqge
      rcases List.mem_append.mp hq with hq | hq
      · cases hst : st.1 with
        | none => exact absurd hqge (by unfold NextOk at hN; rw [hst] at hN; exact hN q hq)
        | some z =>
          rw [hst] at hall hN
          simp only [Option.all_some, decide_eq_true_eq] at hall
          unfold NextOk at hN
          have := hN.2.2 q hq hqge
          omega
      · simp at hq
        subst hq
        omega
    · rename_i hcond
      simp only [Bool.and_eq_true, decide_eq_true_eq, not_and_or] at hcond
      cases hst : st.1 with
      | none =>
        unfold NextOk
        intro q hq
        rcases List.mem_append.mp hq with hq | hq
        · unfold NextOk at hN; rw [hst] at hN; exact hN q hq
        · simp at hq
          subst hq
          rw [hst] at hcond
          rcases hcond with h | h
          · omega
          · simp at h
      | some z =>
        rw [hst] at hN hcond
        unfold NextOk at hN ⊢
        obtain ⟨⟨b, hb, hbs⟩, hz1, hz2⟩ := hN
        refine ⟨⟨b, List.mem_append_left _ hb, hbs⟩, hz1, ?_⟩
        intro q hq hqge
        rcases List.mem_append.mp hq with hq | hq
        · exact hz2 q hq hqge
        · simp at hq
          subst hq
          rcases hcond with h | h
          · omega
          · simp only [Option.all_some, decide_eq_true_eq] at h
            omega
  · show PrevOk now (seen ++ [p])
      (if p.2.startMin ≤ now && (st.2.all fun q => p.2.startMin > q.2) then
        some (p.1, p.2.startMin) else st.2)
    split
    · rename_i hcond
      simp only [Bool.and_eq_true, decide_eq_true_eq] at hcond
      obtain ⟨hle, hall⟩ := hcond
      refine ⟨⟨p.2, by simp, rfl⟩, hle, ?_⟩
      intro q hq hqle
      rcases List.mem_append.mp hq with hq | hq
      · cases hst : st.2 with
        | none => exact absurd hqle (by unfold PrevOk at hP; rw [hst] at hP; exact hP q hq)
        | some z =>
          rw [hst] at hall hP
          simp only [Option.all_some, decide_eq_true_eq] at hall
          unfold PrevOk at hP
          have := hP.2.2 q hq hqle
          omega
      · simp at hq
        subst hq
        omega
    · rename_i hcond
      simp only [Bool.and_eq_true, decide_eq_true_eq, not_and_or] at hcond
      cases hst : st.2 with
      | none =>
        unfold PrevOk
        intro q hq
        rcases List.mem_append.mp hq with hq | hq
        · unfold PrevOk at hP; rw [hst] at hP; exact hP q hq
        · simp at hq
          subst hq
          rw [hst] at hcond
          rcases hcond with h | h
          · omega
          · simp at h
      | some z =>
        rw [hst] at hP hcond
        unfold PrevOk at hP ⊢
        obtain ⟨⟨b, hb, hbs⟩, hz1, hz2⟩ := hP
        refine ⟨⟨b, List.mem_append_left _ hb, hbs⟩, hz1, ?_⟩
        intro q hq hqle
        rcases List.mem_append.mp hq with hq | hq
        · exact hz2 q hq hqle
        · simp at hq
          subst hq
          rcases hcond with h | h
          · omega
          · simp only [Option.all_some, decide_eq_true_eq] at h
            omega

theorem foldNP_spec (now : Int) : ∀ (l seen : List (Nat × BuiltBlock))
    (st : Option (Nat × Int) × Option (Nat × Int)),
    NextOk now seen st.1 → PrevOk now seen st.2 →
    NextOk now (seen ++ l) (l.foldl (stepNP now) st).1 ∧
    PrevOk now (seen ++ l) (l.foldl (stepNP now) st).2 := by
  intro l
  induction l with
  | nil => intro seen st hN hP; simpa using ⟨hN, hP⟩
  | cons p rest ih =>
    intro seen st hN hP
    have hstep := stepNP_preserves now st seen p hN hP
    have := ih (seen ++ [p]) (stepNP now st p) hstep.1 hstep.2
    simpa [List.append_assoc] using this

theorem mem_enum_iff_getElem? (blocks : List BuiltBlock) (i : Nat) (b : BuiltBlock) :
    (i, b) ∈ blocks.enum ↔ blocks[i]? = some b := by
  rw [List.mk_mem_enum_iff_getElem?]

/-- C5: for every non-empty built-block list, `findCurrentBlockIndex`
returns an in-range index; it is the first index whose block contains `now`
(normal or wrapping interval semantics) when one exists; otherwise it is an
index whose start is the smallest start `≥ now` when one exists, else an
index whose start is the largest start `≤ now`; on the default 8-block day
it returns the 06:30–09:00 block (index 1) at 08:00 and the last block
(index 7) at 23:59. -/
theorem findCurrentBlockIndex_spec :
    (∀ (now : Int) (blocks : List BuiltBlock), blocks ≠ [] →
      (findCurrentBlockIndex now blocks < blocks.length ∧
       ((∃ (i : Nat) (x : BuiltBlock), blocks[i]? = some x ∧ blockContains now x = true) →
         ∃ y : BuiltBlock, blocks[findCurrentBlockIndex now blocks]? = some y ∧
           blockContains now y = true ∧
           ∀ (j : Nat) (z : BuiltBlock), j < findCurrentBlockIndex now blocks →
             blocks[j]? = some z → blockContains now z = false) ∧
       ((∀ (i : Nat) (x : BuiltBlock), blocks[i]? = some x → blockContains now x = false) →
         (∃ (i : Nat) (x : BuiltBlock), blocks[i]? = some x ∧ now ≤ x.startMin) →
         ∃ y : BuiltBlock, blocks[findCurrentBlockIndex now blocks]? = some y ∧
           now ≤ y.startMin ∧
           ∀ (j : Nat) (z : BuiltBlock), blocks[j]? = some z → now ≤ z.startMin →
             y.startMin ≤ z.startMin) ∧
       ((∀ (i : Nat) (x : BuiltBlock), blocks[i]? = some x → blockContains now x = false) →
         (∀ (i : Nat) (x : BuiltBlock), blocks[i]? = some x → ¬ now ≤ x.startMin) →
         ∃ y : BuiltBlock, blocks[findCurrentBlockIndex now blocks]? = some y ∧
           y.startMin ≤ now ∧
           ∀ (j : Nat) (z : BuiltBlock), blocks[j]? = some z →
             z.startMin ≤ y.startMin))) ∧
    findCurrentBlockIndex 480 (buildBlocks TIME_BLOCKS) = 1 ∧
    findCurrentBlockIndex 1439 (buildBlocks TIME_BLOCKS) = 7 := by
  refine ⟨?_, by decide, by decide⟩
  intro now blocks hne
  have hemp : blocks.isEmpty = false := by
    cases blocks
    · simp at hne
    · simp
  cases hloop : findLoop now 0 blocks with
  | some i =>
    have hr : findCurrentBlockIndex now blocks = i := by
      simp [findCurrentBlockIndex, hemp, hloop]
    obtain ⟨k, x, hj, hx, hcx, hbef⟩ := findLoop_some_spec now blocks 0 i hloop
    have hik : i = k := by omega
    rw [hik] at hr
    rw [hr]
    have hklen : k < blocks.length := by
      by_contra hcon
      rw [List.getElem?_eq_none (by omega)] at hx
      simp at hx
    refine ⟨hklen, ?_, ?_, ?_⟩
    · intro _
      exact ⟨x, hx, hcx, hbef⟩
    · intro hnone _
      exact absurd (hnone k x hx) (by simp [hcx])
    · intro hnone _
      exact absurd (hnone k x hx) (by simp [hcx])
  | none =>
    have hNe : NextOk now ([] : List (Nat × BuiltBlock)) Option.none := by
      unfold NextOk; intro p hp; simp at hp
    have hPe : PrevOk now ([] : List (Nat × BuiltBlock)) Option.none := by
      unfold PrevOk; intro p hp; simp at hp
    have hfold := foldNP_spec now blocks.enum [] (Option.none, Option.none) hNe hPe
    simp only [List.nil_append] at hfold
    have hnocontain := findLoop_none_spec now blocks 0 hloop
    cases hst1 : (blocks.enum.foldl (stepNP now) (Option.none, Option.none)).1 with
    | some q =>
      have hr : findCurrentBlockIndex now blocks = q.1 := by
        simp [findCurrentBlockIndex, hemp, hloop, hst1]
      rw [hr]
      have hN := hfold.1
      rw [hst1] at hN
      unfold NextOk at hN
      obtain ⟨⟨b, hbmem, hbs⟩, hq2, hmin⟩ := hN
      have hbget : blocks[q.1]? = some b := (mem_enum_iff_getElem? blocks q.1 b).mp hbmem
      have hq1len : q.1 < blocks.length := by
        by_contra hcon
        rw [List.getElem?_eq_none (by omega)] at hbget
        simp at hbget
      refine ⟨hq1len, ?_, ?_, ?_⟩
      · rintro ⟨i, x, hx, hcx⟩
        exact absurd (hnocontain i x hx) (by simp [hcx])
      · intro _ _
        refine ⟨b, hbget, by omega, ?_⟩
        intro j z hz hzge
        have hjz := hmin (j, z) ((mem_enum_iff_getElem? blocks j z).mpr hz) (by simpa using hzge)
        dsimp only at hjz
        omega
      · intro _ hallbelow
        exact absurd (by omega : now ≤ b.startMin) (hallbelow q.1 b hbget)
    | none =>
      have hN := hfold.1
      rw [hst1] at hN
      unfold NextOk at hN
      cases hst2 : (blocks.enum.foldl (stepNP now) (Option.none, Option.none)).2 with
      | some q =>
        have hr : findCurrentBlockIndex now blocks = q.1 := by
          simp [findCurrentBlockIndex, hemp, hloop, hst1, hst2]
        rw [hr]
        have hP := hfold.2
        rw [hst2] at hP
        unfold PrevOk at hP
        obtain ⟨⟨b, hbmem, hbs⟩, hq2, hmax⟩ := hP
        have hbget : blocks[q.1]? = some b := (mem_enum_iff_getElem? blocks q.1 b).mp hbmem
        have hq1len : q.1 < blocks.length := by
          by_contra hcon
          rw [List.getElem?_eq_none (by omega)] at hbget
          simp at hbget
        refine ⟨hq1len, ?_, ?_, ?_⟩
        · rintro ⟨i, x, hx, hcx⟩
          exact absurd (hnocontain i x hx) (by simp [hcx])
        · rintro _ ⟨i, x, hx, hxge⟩
          exact absurd (by simpa using hxge)
            (hN (i, x) ((mem_enum_iff_getElem? blocks i x).mpr hx))
        · intro _ hallbelow
          refine ⟨b, hbget, by omega, ?_⟩
          intro j z hz
          have hzle : z.startMin ≤ now := by
            have := hallbelow j z hz
            omega
          have hjz := hmax (j, z) ((mem_enum_iff_getElem? blocks j z).mpr hz) (by simpa using hzle)
          dsimp only at hjz
          omega
      | none =>
        exfalso
        cases blocks with
        | nil => exact hne rfl
        | cons c rest =>
          have hc0 : (c :: rest)[0]? = some c := by simp
          have hmem := (mem_enum_iff_getElem? (c :: rest) 0 c).mpr hc0
          have h1 := hN (0, c) hmem
          have hP := hfold.2
          rw [hst2] at hP
          unfold PrevOk at hP
          have h2 := hP (0, c) hmem
          simp at h1 h2
          omega

/-- Witness for C5 on the default day at 08:00. -/
theorem findCurrentBlockIndex_spec_witness :
    findCurrentBlockIndex 480 (buildBlocks TIME_BLOCKS) < (buildBlocks TIME_BLOCKS).length :=
  (findCurrentBlockIndex_spec.1 480 (buildBlocks TIME_BLOCKS) (by decide)).1

theorem eventCmpLe_allDay (a b : CalendarEvent) (h : eventCmpLe a b = true) :
    a.allDay = true → b.allDay = true := by
  unfold eventCmpLe at h
  cases ha : a.allDay <;> cases hb : b.allDay <;> simp_all

theorem eventCmpLe_false_allDay (a b : CalendarEvent) (h : eventCmpLe a b = false) :
    b.allDay = true → a.allDay = true := by
  unfold eventCmpLe at h
  cases ha : a.allDay <;> cases hb : b.allDay <;> simp_all

theorem eventCmpLe_total (a b : CalendarEvent)
    (hpa : (toMinutes a.start).isSome = true) (hpb : (toMinutes b.start).isSome = true) :
    eventCmpLe a b = true ∨ eventCmpLe b a = true := by
  obtain ⟨x, hx⟩ := Option.isSome_iff_exists.mp hpa
  obtain ⟨y, hy⟩ := Option.isSome_iff_exists.mp hpb
  unfold eventCmpLe
  cases ha : a.allDay <;> cases hb : b.allDay <;> simp_all <;> omega

theorem eventCmpLe_trans (a b c : CalendarEvent)
    (hpa : (toMinutes a.start).isSome = true) (hpb : (toMinutes b.start).isSome = true)
    (hpc : (toMinutes c.start).isSome = true)
    (hab : eventCmpLe a b = true) (hbc : eventCmpLe b c = true) :
    eventCmpLe a c = true := by
  obtain ⟨x, hx⟩ := Option.isSome_iff_exists.mp hpa
  obtain ⟨y, hy⟩ := Option.isSome_iff_exists.mp hpb
  obtain ⟨z, hz⟩ := Option.isSome_iff_exists.mp hpc
  unfold eventCmpLe at hab hbc ⊢
  cases ha : a.allDay <;> cases hb : b.allDay <;> cases hc : c.allDay <;>
    simp_all <;> omega

theorem orderedInsert_pairwise_allDay (a : CalendarEvent) :
    ∀ (l : List CalendarEvent),
      List.Pairwise (fun x y => x.allDay = true → y.allDay = true) l →
      List.Pairwise (fun x y => x.allDay = true → y.allDay = true)
        (List.orderedInsert (fun x y => eventCmpLe x y = true) a l) := by
  intro l
  induction l with
  | nil => intro _; simp
  | cons b t ih =>
    intro hl
    rw [List.pairwise_cons] at hl
    obtain ⟨hbt, ht⟩ := hl
    unfold List.orderedInsert
    split
    · rename_i hab
      rw [List.pairwise_cons]
      refine ⟨?_, List.pairwise_cons.mpr ⟨hbt, ht⟩⟩
      intro y hy
      rcases List.mem_cons.mp hy with rfl | hy
      · exact eventCmpLe_allDay a y hab
      · intro ha
        exact hbt y hy (eventCmpLe_allDay a b hab ha)
    · rename_i hab
      have hab' : eventCmpLe a b = false := by simpa using hab
      rw [List.pairwise_cons]
      constructor
      · intro y hy
        rcases (List.mem_orderedInsert (fun x y => eventCmpLe x y = true)).mp hy with rfl | hy
        · exact eventCmpLe_false_allDay y b hab'
        · exact hbt y hy
      · exact ih ht

theorem insertionSort_pairwise_allDay :
    ∀ (l : List CalendarEvent),
      List.Pairwise (fun x y => x.allDay = true → y.allDay = true)
        (List.insertionSort (fun x y => eventCmpLe x y = true) l) := by
  intro l
  induction l with
  | nil => simp
  | cons a t ih =>
    exact orderedInsert_pairwise_allDay a _ ih

theorem orderedInsert_pairwise_le (a : CalendarEvent)
    (hpa : (toMinutes a.start).isSome = true) :
    ∀ (l : List CalendarEvent), (∀ e ∈ l, (toMinutes e.start).isSome = true) →
      List.Pairwise (fun x y => eventCmpLe x y = true) l →
      List.Pairwise (fun x y => eventCmpLe x y = true)
        (List.orderedInsert (fun x y => eventCmpLe x y = true) a l) := by
  intro l
  induction l with
  | nil => intro _ _; simp
  | cons b t ih =>
    intro hp hl
    rw [List.pairwise_cons] at hl
    obtain ⟨hbt, ht⟩ := hl
    have hpb : (toMinutes b.start).isSome = true := hp b (by simp)
    unfold List.orderedInsert
    split
    · rename_i hab
      rw [List.pairwise_cons]
      refine ⟨?_, List.pairwise_cons.mpr ⟨hbt, ht⟩⟩
      intro y hy
      rcases List.mem_cons.mp hy with rfl | hy
      · exact hab
      · exact eventCmpLe_trans a b y hpa hpb (hp y (by simp [hy])) hab (hbt y hy)
    · rename_i hab
      have hba : eventCmpLe b a = true := by
        rcases eventCmpLe_total a b hpa hpb with h | h
        · exact absurd h hab
        · exact h
      rw [List.pairwise_cons]
      constructor
      · intro y hy
        rcases (List.mem_orderedInsert (fun x y => eventCmpLe x y = true)).mp hy with rfl | hy
        · exact hba
        · exact hbt y hy
      · exact ih (fun e he => hp e (by simp [he])) ht

theorem insertionSort_pairwise_le :
    ∀ (l : List CalendarEvent), (∀ e ∈ l, (toMinutes e.start).isSome = true) →
      List.Pairwise (fun x y => eventCmpLe x y = true)
        (List.insertionSort (fun x y => eventCmpLe x y = true) l) := by
  intro l
  induction l with
  | nil => intro _; simp
  | cons a t ih =>
    intro hp
    have hsub : ∀ e ∈ List.insertionSort (fun x y => eventCmpLe x y = true) t,
        (toMinutes e.start).isSome = true := by
      intro e he
      exact hp e (List.mem_cons_of_mem a
        ((List.perm_insertionSort (fun x y => eventCmpLe x y = true) t).mem_iff.mp he))
    exact orderedInsert_pairwise_le a (hp a (by simp)) _ hsub
      (ih fun e he => hp e (by simp [he]))

theorem matchEvent_eq_find (now : Int) :
    ∀ (l : List CalendarEvent),
      (∀ e ∈ l, e.allDay = false → ∀ x y : Int, toMinutes e.start = some x →
        toMinutes e.end_ = some y → ¬(x ≤ now ∧ now < y)) →
      matchEvent now l = l.find? (fun e => e.allDay) := by
  intro l
  induction l with
  | nil => intro _; rfl
  | cons e t ih =>
    intro hno
    by_cases hall : e.allDay
    · simp [matchEvent, List.find?, hall]
    · have hall' : e.allDay = false := by simpa using hall
      have ht := ih fun c hc => hno c (by simp [hc])
      simp only [matchEvent, hall', List.find?, if_false, Bool.false_eq_true]
      cases hx : toMinutes e.start with
      | none => exact ht
      | some x =>
        cases hy : toMinutes e.end_ with
        | none => exact ht
        | some y =>
          show (if x ≤ now ∧ now < y then some e else matchEvent now t) = _
          rw [if_neg (hno e (by simp) hall' x y hx hy)]
          exact ht

/-- C1 (amended): the active-event resolution sorts the candidates so that
every timed event precedes every all-day event (timed events in ascending
start-minute order when their starts parse), and therefore, whenever at
least one all-day candidate occurs on the date and no timed candidate's
interval contains the clock minute, it returns the first all-day event of
the sorted order. -/
theorem resolveActiveEvent_amended :
    (∀ (events : List CalendarEvent) (dk : String),
      List.Pairwise (fun a b => a.allDay = true → b.allDay = true)
        (sortEvents (events.filter fun e => eventOccursOnDate e dk))) ∧
    (∀ (events : List CalendarEvent) (dk : String),
      (∀ e ∈ events.filter (fun e => eventOccursOnDate e dk),
        (toMinutes e.start).isSome = true) →
      List.Pairwise (fun a b => a.allDay = false → b.allDay = false →
        ∀ x y : Int, toMinutes a.start = some x → toMinutes b.start = some y → x ≤ y)
        (sortEvents (events.filter fun e => eventOccursOnDate e dk))) ∧
    (∀ (events : List CalendarEvent) (dk : String) (now : Int),
      (∃ e ∈ events.filter (fun e => eventOccursOnDate e dk), e.allDay = true) →
      (∀ e ∈ events.filter (fun e => eventOccursOnDate e dk), e.allDay = false →
        ∀ x y : Int, toMinutes e.start = some x → toMinutes e.end_ = some y →
          ¬(x ≤ now ∧ now < y)) →
      ∃ a : CalendarEvent,
        (sortEvents (events.filter fun e => eventOccursOnDate e dk)).find?
          (fun e => e.allDay) = some a ∧
        resolveActiveEvent events dk now = some a ∧ a.allDay = true) := by
  refine ⟨?_, ?_, ?_⟩
  · intro events dk
    exact insertionSort_pairwise_allDay _
  · intro events dk hp
    have := insertionSort_pairwise_le _ hp
    refine this.imp ?_
    intro a b hab ha hb x y hx hy
    unfold eventCmpLe at hab
    rw [ha, hb, hx, hy] at hab
    simpa using hab
  · intro events dk now hex hno
    obtain ⟨w, hw, hwall⟩ := hex
    have hperm := List.perm_insertionSort
      (fun x y => eventCmpLe x y = true) (events.filter fun e => eventOccursOnDate e dk)
    have hwsorted : w ∈ sortEvents (events.filter fun e => eventOccursOnDate e dk) :=
      hperm.mem_iff.mpr hw
    have hfind : ((sortEvents (events.filter fun e => eventOccursOnDate e dk)).find?
        (fun e => e.allDay)).isSome = true := by
      rw [List.find?_isSome]
      exact ⟨w, hwsorted, hwall⟩
    obtain ⟨a, ha⟩ := Option.isSome_iff_exists.mp hfind
    have haall : a.allDay = true := List.find?_some ha
    refine ⟨a, ha, ?_, haall⟩
    have hevne : events.isEmpty = false := by
      have hwev : w ∈ events := (List.mem_filter.mp hw).1
      cases events
      · simp at hwev
      · simp
    have hcne : (events.filter fun e => eventOccursOnDate e dk).isEmpty = false := by
      cases hc : events.filter fun e => eventOccursOnDate e dk
      · rw [hc] at hw; simp at hw
      · simp
    simp only [resolveActiveEvent, hevne, hcne, Bool.false_eq_true, if_false]
    rw [matchEvent_eq_find now _ ?_]
    · exact ha
    · intro e he
      exact hno e (hperm.mem_iff.mp he)

/-- C1 counterexample: with one all-day and one timed candidate on the
date, the sort places the timed event first (all-day does NOT precede
timed) and the resolution at 10:30 returns the timed event, not the
all-day one — so "returns the first all-day event regardless of the clock
minute" fails. -/
theorem resolveActiveEvent_allDayFirst_cex :
    exEvAllDay.allDay = true ∧ exEvTimed.allDay = false ∧
    eventOccursOnDate exEvAllDay "2024-05-01" = true ∧
    eventOccursOnDate exEvTimed "2024-05-01" = true ∧
    sortEvents [exEvAllDay, exEvTimed] = [exEvTimed, exEvAllDay] ∧
    resolveActiveEvent [exEvAllDay, exEvTimed] "2024-05-01" 630 ≠ some exEvAllDay := by
  decide

/-- Witness for C1 (amended): a lone all-day candidate is returned. -/
theorem resolveActiveEvent_amended_witness :
    ∃ a : CalendarEvent,
      (sortEvents ([exEvAllDay].filter fun e =>
        eventOccursOnDate e "2024-05-01")).find? (fun e => e.allDay) = some a ∧
      resolveActiveEvent [exEvAllDay] "2024-05-01" 0 = some a ∧ a.allDay = true :=
  resolveActiveEvent_amended.2.2 [exEvAllDay] "2024-05-01" 0
    ⟨exEvAllDay, by decide, by decide⟩
    (by
      intro e he hf
      rw [show ([exEvAllDay].filter fun e => eventOccursOnDate e "2024-05-01") =
        [exEvAllDay] from by decide] at he
      rw [show e = exEvAllDay from by simpa using he] at hf
      simp [exEvAllDay] at hf)
